import Mathlib

/-!
Verification development for the iOS IPA Renamer.

The program scans a directory for `.ipa` archives, locates the bundle
manifest (`Info.plist`) inside each archive, decodes it (binary or textual
property list), extracts `{appName, version, minIOS}` metadata, derives a new
file name and renames the archive.

This file gives a shallow embedding of the logic-bearing parts of
`#iOSIPARenamer.js`:
  * strings are `List Char` (JavaScript strings are sequences of code units;
    all characters involved here are plain code points);
  * byte buffers are `List Nat` (each element a byte value);
  * the Node `path.posix` functions used by the program (`dirname`,
    `extname`, `basename`, `join`) are modelled from Node's documented
    posix algorithms;
  * `Buffer.prototype.toString()` (UTF-8 decoding with U+FFFD replacement)
    is modelled by an explicit UTF-8 decoder;
  * the `yauzl` / `plist` / `bplist-parser` libraries are abstracted as
    fields of an `Archive` record (entry list, per-entry read results,
    parser results); the pipeline logic around them is translated faithfully;
  * JavaScript's heterogeneous manifest values are an inductive `JSValue`
    with JS truthiness; the uncaught `TypeError` that
    `value?.replace(...)` raises on a truthy non-string is an
    `Except.error`.
-/

namespace IPARenamer

/-- The filesystem-reserved characters of the two sanitizing regexes
`/[\/\\:*?"<>|]/g` in `#extractInfoFromIPA` and `#getNewFilePath`. -/
def reservedChars : List Char := ['/', '\\', ':', '*', '?', '"', '<', '>', '|']

/-- `s.replace(/[\/\\:*?"<>|]/g, ' ')`: every reserved character is replaced
by a single space. -/
def sanitize (s : List Char) : List Char :=
  s.map (fun c => if c ∈ reservedChars then ' ' else c)

/-- The literal fallback name used when no name key yields a value. -/
def unknownName : List Char := "UnknownName".toList

/-- A JavaScript value as it can appear under a key of a decoded property
list: a string, a (numeric) scalar, a boolean, `null`, or `undefined`
(the value of an absent key). -/
inductive JSValue where
  | str (s : List Char)
  | num (n : Int)
  | bool (b : Bool)
  | null
  | undefined
  deriving DecidableEq

/-- JavaScript truthiness of a `JSValue`. -/
def truthy : JSValue → Bool
  | .str s => !s.isEmpty
  | .num n => n != 0
  | .bool b => b
  | .null => false
  | .undefined => false

/-- JavaScript `a || b`: `a` when truthy, otherwise `b`. -/
def jsOr (a b : JSValue) : JSValue := if truthy a then a else b

/-- A right-nested `||` chain `v1 || (v2 || (... || last))`; JavaScript's
left-associated `a || b || c` evaluates to the same value (the first truthy
operand, or the last operand). -/
def chainOr : List JSValue → JSValue → JSValue
  | [], last => last
  | v :: rest, last => jsOr v (chainOr rest last)

/-- JavaScript string conversion, as performed by template literals. -/
def jsToString : JSValue → List Char
  | .str s => s
  | .num n => (toString n).toList
  | .bool true => "true".toList
  | .bool false => "false".toList
  | .null => "null".toList
  | .undefined => "undefined".toList

/-- A decoded manifest, restricted to the seven keys the program reads.
Keys the archive's plist does not define hold `JSValue.undefined`. -/
structure DecodedManifest where
  CFBundleDisplayName : JSValue
  CFBundleName : JSValue
  BundleDisplayName : JSValue
  UILocalizedDisplayName : JSValue
  CFBundleShortVersionString : JSValue
  CFBundleVersion : JSValue
  MinimumOSVersion : JSValue
  deriving DecidableEq

/-- The normalized metadata record `{ appName, version, minIOS }` built at
the end of `#extractInfoFromIPA`. -/
structure AppMetadata where
  appName : List Char
  version : List Char
  minIOS : List Char
  deriving DecidableEq

/-- `(v)?.replace(/[\/\\:*?"<>|]/g, ' ') || 'UnknownName'`.
Optional chaining only guards `null`/`undefined`; on any other non-string
value the property `replace` is not a function and a `TypeError` is thrown
(modelled as `Except.error`), uncaught by the surrounding code. -/
def appNameOf (v : JSValue) : Except Unit (List Char) :=
  match v with
  | .str s => Except.ok (if sanitize s = [] then unknownName else sanitize s)
  | .null => Except.ok unknownName
  | .undefined => Except.ok unknownName
  | _ => Except.error ()

/-- The metadata extraction of `#extractInfoFromIPA` (lines 160-165):

  appName = (CFBundleDisplayName || CFBundleName || BundleDisplayName ||
             UILocalizedDisplayName)?.replace(reserved, ' ') || 'UnknownName'
  rawVersion = CFBundleShortVersionString || CFBundleVersion || null
  version = rawVersion ? ` [v${rawVersion}]` : ''
  minIOS = ` [iOS ${MinimumOSVersion || '0.0.0'}]` -/
def extractInfo (data : DecodedManifest) : Except Unit AppMetadata :=
  match appNameOf (jsOr data.CFBundleDisplayName (jsOr data.CFBundleName
      (jsOr data.BundleDisplayName data.UILocalizedDisplayName))) with
  | .error err => .error err
  | .ok appName =>
    let rawVersion := jsOr data.CFBundleShortVersionString
      (jsOr data.CFBundleVersion .null)
    let version :=
      if truthy rawVersion then " [v".toList ++ jsToString rawVersion ++ "]".toList
      else []
    let minIOS := " [iOS ".toList ++
      jsToString (jsOr data.MinimumOSVersion (.str "0.0.0".toList)) ++ "]".toList
    .ok ⟨appName, version, minIOS⟩

/-- `true` when a value is a string or `undefined` (an ordinary present or
absent plist string field). -/
def strOrUndef : JSValue → Bool
  | .str _ => true
  | .undefined => true
  | _ => false

/-- `true` when a value is a string, `null` or `undefined` — the values on
which `value?.replace(...)` cannot raise. -/
def strOrNullish : JSValue → Bool
  | .str _ => true
  | .null => true
  | .undefined => true
  | _ => false

/-- All seven recognized keys hold plain string-or-absent values. -/
def stringValued (d : DecodedManifest) : Bool :=
  strOrUndef d.CFBundleDisplayName && strOrUndef d.CFBundleName &&
  strOrUndef d.BundleDisplayName && strOrUndef d.UILocalizedDisplayName &&
  strOrUndef d.CFBundleShortVersionString && strOrUndef d.CFBundleVersion &&
  strOrUndef d.MinimumOSVersion

/-- Modelled from the spec: the first non-empty string among a list of
candidate values (sections 4.4 and 6 of the spec speak of the "first
non-empty value among" the candidate keys). -/
def specFirstNonEmpty : List JSValue → Option (List Char)
  | [] => none
  | .str s :: rest => if s = [] then specFirstNonEmpty rest else some s
  | _ :: rest => specFirstNonEmpty rest

/-- Modelled from the spec (4.4): `appName` is the first non-empty value
among the four name keys in priority order, reserved characters replaced by
spaces, with literal fallback `"UnknownName"`. -/
def specAppName (d : DecodedManifest) : List Char :=
  match specFirstNonEmpty [d.CFBundleDisplayName, d.CFBundleName,
      d.BundleDisplayName, d.UILocalizedDisplayName] with
  | some s => sanitize s
  | none => unknownName

/-- Modelled from the spec (4.4): `version` is the first non-empty value
among the short-version key then the build-version key, formatted as
a space followed by `[v<value>]`, or empty. -/
def specVersion (d : DecodedManifest) : List Char :=
  match specFirstNonEmpty [d.CFBundleShortVersionString, d.CFBundleVersion] with
  | some v => " [v".toList ++ v ++ "]".toList
  | none => []

/-- Modelled from the spec (4.4): the value of the minimum-OS-version key,
defaulting to `0.0.0` only when the key is absent — a present value is used
as is, even when it is the empty string. -/
def specMinValue : JSValue → List Char
  | .str v => v
  | _ => "0.0.0".toList

/-- Modelled from the spec (4.4): `minPlatform` is always a space followed by
`[iOS <value>]`, with the value of the minimum-OS-version key defaulting to
`0.0.0` when the key is absent. (The code additionally defaults when the key
is present but empty, because `||` tests falsiness; see the C3
counterexample.) -/
def specMinPlatform (d : DecodedManifest) : List Char :=
  " [iOS ".toList ++ specMinValue d.MinimumOSVersion ++ "]".toList

/-! ### UTF-8 decoding (`Buffer.prototype.toString()`), binary signature -/

/-- The replacement character U+FFFD emitted for invalid UTF-8 input. -/
def replChar : Char := Char.ofNat 0xFFFD

/-- Consume `n` continuation bytes (`0x80-0xBF`), accumulating the code
point value; `none` when a byte is not a continuation byte or input ends. -/
def takeCont : Nat → Nat → List Nat → Option (Nat × List Nat)
  | 0, v, rest => some (v, rest)
  | n + 1, v, b :: rest =>
    if 0x80 ≤ b ∧ b < 0xC0 then takeCont n (v * 0x40 + (b - 0x80)) rest
    else none
  | _ + 1, _, [] => none

/-- Decode one multi-byte sequence: `numCont` continuation bytes after a
lead byte with value contribution `leadVal`, expecting a code point in
`[lo, hi]` and not a surrogate; anything else yields U+FFFD (and the
malformed bytes are left for the following decode steps). -/
def decodeMulti (numCont leadVal lo hi : Nat) (bytes : List Nat) :
    Char × List Nat :=
  match takeCont numCont leadVal bytes with
  | some (v, rest) =>
    if lo ≤ v ∧ v ≤ hi ∧ ¬(0xD800 ≤ v ∧ v ≤ 0xDFFF) then (Char.ofNat v, rest)
    else (replChar, bytes)
  | none => (replChar, bytes)

/-- Decode step for a lead byte `b ≥ 0x80`. -/
def utf8Step (b : Nat) (rest : List Nat) : Char × List Nat :=
  if 0xC2 ≤ b ∧ b ≤ 0xDF then decodeMulti 1 (b - 0xC0) 0x80 0x7FF rest
  else if 0xE0 ≤ b ∧ b ≤ 0xEF then decodeMulti 2 (b - 0xE0) 0x800 0xFFFF rest
  else if 0xF0 ≤ b ∧ b ≤ 0xF4 then decodeMulti 3 (b - 0xF0) 0x10000 0x10FFFF rest
  else (replChar, rest)

/-- UTF-8 decoding with enough fuel (one unit per input byte suffices). -/
def utf8DecodeAux : Nat → List Nat → List Char
  | 0, _ => []
  | _ + 1, [] => []
  | fuel + 1, b :: rest =>
    if b < 0x80 then Char.ofNat b :: utf8DecodeAux fuel rest
    else
      let p := utf8Step b rest
      p.1 :: utf8DecodeAux fuel p.2

/-- UTF-8 decoding of a byte sequence, replacement-character style, as
performed by Node's `Buffer.prototype.toString()`. -/
def utf8Decode (bytes : List Nat) : List Char := utf8DecodeAux bytes.length bytes

/-- `buffer.toString()` as a Lean `String`. -/
def bufferToString (bytes : List Nat) : String := ⟨utf8Decode bytes⟩

/-- The ASCII bytes of the binary property-list signature `bplist`. -/
def bplistSig : List Nat := [0x62, 0x70, 0x6C, 0x69, 0x73, 0x74]

/-- `buffer.slice(0, 6).toString() === 'bplist'` — the binary-format test
of `#extractInfoFromIPA` (line 152). -/
def isBinaryPlist (bytes : List Nat) : Bool :=
  bufferToString (bytes.take 6) == "bplist"

/-- Which property-list decoder an entry's bytes are routed to. -/
inductive PlistDecoder where
  | binary
  | textual
  deriving DecidableEq

/-- The decoder dispatch of line 152-155: binary when the signature test
succeeds, textual otherwise. -/
def routeDecoder (bytes : List Nat) : PlistDecoder :=
  if isBinaryPlist bytes then .binary else .textual

/-! ### Manifest locator -/

/-- The literal `Payload/` head of the manifest regex. -/
def payloadHead : List Char := "Payload/".toList

/-- The literal `.app/Info.plist` tail of the manifest regex. -/
def appSuffix : List Char := ".app/Info.plist".toList

/-- Match `[^/]+\.app\/Info\.plist$` against `r`: some non-empty slash-free
segment followed by exactly `.app/Info.plist` ending the string. -/
def segSuffixAux : List Char → Bool
  | [] => false
  | c :: rest =>
    if c = '/' then false else (rest == appSuffix) || segSuffixAux rest

/-- Match the pattern `Payload\/[^/]+\.app\/Info\.plist$` at the start of
`l` (and running to the end of `l`). This is also exactly the anchored
pattern of spec section 6. -/
def anchoredPayloadMatch (l : List Char) : Bool :=
  payloadHead.isPrefixOf l && segSuffixAux (l.drop payloadHead.length)

/-- `/Payload\/[^/]+\.app\/Info\.plist$/.test(name)`: the regex is only
anchored at the end, so the match may start at any position. -/
def testManifestRegex : List Char → Bool
  | [] => false
  | l@(_ :: rest) => anchoredPayloadMatch l || testManifestRegex rest

/-- The manifest locator: entries are visited in container order and the
first one whose name passes the regex test is chosen (lines 132-137);
`none` when enumeration ends without a match. -/
def locateManifest (entries : List (List Char)) : Option (List Char) :=
  entries.find? testManifestRegex

/-- Declarative reading of the (end-anchored) manifest pattern: the name
decomposes as an arbitrary front, then `Payload/`, a non-empty slash-free
segment, and `.app/Info.plist` closing the name. -/
def SuffixPatMatch (l : List Char) : Prop :=
  ∃ pre seg, l = pre ++ payloadHead ++ seg ++ appSuffix ∧ seg ≠ [] ∧ '/' ∉ seg

/-! ### Node `path.posix` operations -/

/-- Index of the last occurrence of `c`, if any. -/
def lastIdxOf (c : Char) : List Char → Option Nat
  | [] => none
  | x :: rest =>
    match lastIdxOf c rest with
    | some k => some (k + 1)
    | none => if x = c then some 0 else none

/-- Remove trailing `/` characters. -/
def dropTrailingSlashes (l : List Char) : List Char :=
  (l.reverse.dropWhile (fun c => c = '/')).reverse

/-- `path.posix.basename(p)`: the part after the last `/`, trailing slashes
ignored. -/
def posixBasename (l : List Char) : List Char :=
  match lastIdxOf '/' (dropTrailingSlashes l) with
  | some e => (dropTrailingSlashes l).drop (e + 1)
  | none => dropTrailingSlashes l

/-- Case split of `extOfPart` on the position of the last dot. -/
def extOfPartAux (b : List Char) : Option Nat → List Char
  | none => []
  | some sd => if sd = 0 then [] else if b = ['.', '.'] then [] else b.drop sd

/-- The extension of a basename `b`: from the last `.`, except when there is
no dot, the dot is the first character, or `b` is exactly `..`. -/
def extOfPart (b : List Char) : List Char := extOfPartAux b (lastIdxOf '.' b)

/-- `path.posix.extname(p)`. -/
def posixExtname (l : List Char) : List Char := extOfPart (posixBasename l)

/-- `ext` is a (weak) suffix of `b`. -/
def endsWithExt (b ext : List Char) : Bool :=
  decide (ext.length ≤ b.length) && (b.drop (b.length - ext.length) == ext)

/-- `path.posix.basename(p, ext)`: the basename with `ext` stripped when it
is a non-empty proper suffix of the basename. -/
def posixBasenameExt (l ext : List Char) : List Char :=
  if ext ≠ [] ∧ ext ≠ posixBasename l ∧ endsWithExt (posixBasename l) ext then
    (posixBasename l).take ((posixBasename l).length - ext.length)
  else posixBasename l

/-- `path.posix.dirname(p)`: everything before the last `/` that precedes
the last non-slash run (the loop of Node's implementation only scans
indices at least 1), with the `.` / `/` / `//` special cases. -/
def posixDirname (l : List Char) : List Char :=
  if l = [] then ['.']
  else
    match lastIdxOf '/' (dropTrailingSlashes l) with
    | some e =>
      if e = 0 then (if l.head? == some '/' then ['/'] else ['.'])
      else if (l.head? == some '/') && e == 1 then ['/', '/']
      else (dropTrailingSlashes l).take e
    | none => if l.head? == some '/' then ['/'] else ['.']

/-- Split on `/`; a list with no slash yields one segment, and every slash
separates two (possibly empty) segments. -/
def splitSlash : List Char → List (List Char)
  | [] => [[]]
  | c :: rest =>
    if c = '/' then [] :: splitSlash rest
    else
      match splitSlash rest with
      | s :: ss => (c :: s) :: ss
      | [] => [[c]]

/-- One step of Node's `normalizeString`: skip empty and `.` segments,
resolve `..` against the stack (kept when the path is relative and there is
nothing to pop), push everything else. The stack holds segments in reverse
order. -/
def stepSeg (allowUp : Bool) (stack : List (List Char)) (seg : List Char) :
    List (List Char) :=
  if seg = [] ∨ seg = ['.'] then stack
  else if seg = ['.', '.'] then
    match stack with
    | s :: rest => if s = ['.', '.'] then seg :: stack else rest
    | [] => if allowUp then [seg] else []
  else seg :: stack

/-- Join segments with `/`. -/
def joinSegs : List (List Char) → List Char
  | [] => []
  | [s] => s
  | s :: rest => s ++ '/' :: joinSegs rest

/-- The resolved segment list of Node's `normalizeString`. -/
def normSegsOf (l : List Char) : List (List Char) :=
  ((splitSlash l).foldl (stepSeg (!(l.head? == some '/'))) []).reverse

/-- Node's posix path normalization of a non-empty joined path: resolve
`.` and `..` segments, collapse slash runs, preserve rootedness and a
trailing slash. -/
def normalizeJoined (l : List Char) : List Char :=
  if joinSegs (normSegsOf l) = [] then
    (if l.head? == some '/' then ['/']
     else if l.getLast? == some '/' then ['.', '/'] else ['.'])
  else
    ((if l.head? == some '/' then '/' :: joinSegs (normSegsOf l)
      else joinSegs (normSegsOf l)) ++
     (if l.getLast? == some '/' then ['/'] else []))

/-- `path.posix.join(a, b)`: empty parts are skipped, the rest are joined
with `/` and normalized; joining nothing yields `.`. -/
def posixJoin (a b : List Char) : List Char :=
  if a = [] ∧ b = [] then ['.']
  else if a = [] then normalizeJoined b
  else if b = [] then normalizeJoined a
  else normalizeJoined (a ++ '/' :: b)

/-- JavaScript `toLowerCase`, for the ASCII-only strings it is applied to
(file extensions). -/
def toLowerList (l : List Char) : List Char := l.map Char.toLower

/-! ### Settings, rename planner, pipeline -/

/-- `iOSIPARenamerSettings.INCLUDE_ORIGINAL_NAME` (line 15). -/
def INCLUDE_ORIGINAL_NAME : Bool := true

/-- `iOSIPARenamerSettings.SUPPORTED_EXTENSIONS`. -/
def SUPPORTED_EXTENSIONS : List (List Char) := [".ipa".toList]

/-- `#isFileSupported`. -/
def isFileSupported (fileExt : List Char) : Bool :=
  SUPPORTED_EXTENSIONS.contains fileExt

/-- `#getNewFilePath(info, fileExt, originalPath)` (lines 176-185): build
`[<fileName> ↔ ]<appName> –<version><minIOS><fileExt>`, sanitize it, join
it onto the original directory, and return `none` when the result is the
original path itself. -/
def getNewFilePath (includeOriginalName : Bool) (info : AppMetadata)
    (fileExt originalPath : List Char) : Option (List Char) :=
  let dirName := posixDirname originalPath
  let realExt := posixExtname originalPath
  let fileName := posixBasenameExt originalPath realExt
  let pfx := if includeOriginalName then fileName ++ " ↔ ".toList else []
  let newName := pfx ++ info.appName ++ " –".toList ++ info.version ++
    info.minIOS ++ fileExt
  let safeNewName := sanitize newName
  let newPath := posixJoin dirName safeNewName
  if newPath = originalPath then none else some newPath

/-- The sanitized candidate basename computed inside `#getNewFilePath`
(the value of its local `safeNewName`), exposed for the statements of the
planner theorems. -/
def plannedName (io : Bool) (info : AppMetadata) (fileExt p : List Char) :
    List Char :=
  sanitize ((if io then posixBasenameExt p (posixExtname p) ++ " ↔ ".toList
      else []) ++
    info.appName ++ " –".toList ++ info.version ++ info.minIOS ++ fileExt)

/-- An archive as the pipeline sees it, abstracting the `yauzl` zip reader
and the two plist parsers: whether opening succeeds, the entry names in
container order, the read result per entry, and the parse result of each
library on given bytes (`binParse` stands for `bplist.parseBuffer(b)[0]`,
`txtParse` for `plist.parse(b.toString())`). -/
structure Archive where
  openOk : Bool
  entries : List (List Char)
  readEntry : List Char → Except Unit (List Nat)
  binParse : List Nat → Option DecodedManifest
  txtParse : String → Option DecodedManifest

/-- The decode dispatch of lines 149-156. -/
def decodeManifest (a : Archive) (bytes : List Nat) : Option DecodedManifest :=
  if isBinaryPlist bytes then a.binParse bytes
  else a.txtParse (bufferToString bytes)

/-- `#extractInfoFromIPA` (lines 127-173): open errors, a missing manifest
entry, entry-read errors and parse errors all resolve to `none`
(`Except.ok none`); a `TypeError` thrown while reading metadata fields off
a parsed manifest is uncaught (`Except.error`). -/
def extractInfoFromIPA (a : Archive) : Except Unit (Option AppMetadata) :=
  if a.openOk = false then .ok none
  else
    match locateManifest a.entries with
    | none => .ok none
    | some e =>
      match a.readEntry e with
      | .error _ => .ok none
      | .ok bytes =>
        match decodeManifest a bytes with
        | none => .ok none
        | some d =>
          match extractInfo d with
          | .error err => .error err
          | .ok info => .ok (some info)

/-- Per-file outcome of one iteration of the `#renameFiles` loop. -/
inductive Outcome where
  | unsupported
  | missingMetadata
  | alreadyNamed
  | renamed (newPath : List Char)
  | renameFailed
  deriving DecidableEq

/-- One iteration of the `#renameFiles` loop (lines 88-118) on a file:
unsupported-extension check, metadata extraction, rename planning, and the
rename attempt (`renameOk` tells whether `fs.rename` succeeds). -/
def processOne (includeOrig : Bool) (a : Archive) (renameOk : Bool)
    (filePath : List Char) : Except Unit Outcome :=
  if isFileSupported (toLowerList (posixExtname filePath)) = false then
    .ok .unsupported
  else
    match extractInfoFromIPA a with
    | .error err => .error err
    | .ok none => .ok .missingMetadata
    | .ok (some info) =>
      match getNewFilePath includeOrig info (toLowerList (posixExtname filePath))
          filePath with
      | none => .ok .alreadyNamed
      | some newPath => if renameOk then .ok (.renamed newPath) else .ok .renameFailed

/-- The two private counters of `iOSIPARenamer`. -/
structure Counters where
  renamedCount : Nat
  skippedCount : Nat
  deriving DecidableEq

/-- Counter update per outcome: only a successful rename bumps the renamed
counter, everything else is counted as skipped. -/
def bumpCounters (c : Counters) : Outcome → Counters
  | .renamed _ => { c with renamedCount := c.renamedCount + 1 }
  | _ => { c with skippedCount := c.skippedCount + 1 }

/-- The `#renameFiles` walk over the collected files: each file is processed
in order; an uncaught exception aborts the walk, everything else updates
the counters and continues. -/
def renameFiles (includeOrig : Bool) :
    List (Archive × Bool × List Char) → Counters → Except Unit Counters
  | [], c => .ok c
  | (a, rok, p) :: rest, c =>
    match processOne includeOrig a rok p with
    | .error err => .error err
    | .ok o => renameFiles includeOrig rest (bumpCounters c o)

/-- A concrete decoded manifest used in the concrete end-to-end runs:
`{CFBundleDisplayName: "My App", CFBundleShortVersionString: "2.1",
MinimumOSVersion: "14.0"}` (spec section 8, scenario 1). -/
def sampleManifest : DecodedManifest :=
  ⟨.str "My App".toList, .undefined, .undefined, .undefined,
   .str "2.1".toList, .undefined, .str "14.0".toList⟩

/-- A concrete archive with one matching manifest entry whose (textual,
non-`bplist`) bytes parse to `sampleManifest`. -/
def sampleArchive : Archive :=
  { openOk := true
    entries := ["Payload/My.app/Info.plist".toList]
    readEntry := fun _ => Except.ok [0x3C, 0x3F, 0x78, 0x6D, 0x6C]
    binParse := fun _ => none
    txtParse := fun _ => some sampleManifest }

/-- A concrete archive whose container cannot even be opened. -/
def brokenArchive : Archive :=
  { openOk := false
    entries := []
    readEntry := fun _ => Except.error ()
    binParse := fun _ => none
    txtParse := fun _ => none }

/-! ### Well-formed paths

The walk builds every scanned path by `path.join`, so the paths fed to the
planner are normalized: an absolute directory made of plain segments,
followed by a slash-free file name. -/

/-- A plain path segment: non-empty, no separator, not `.` or `..`. -/
def GoodSeg (s : List Char) : Prop :=
  s ≠ [] ∧ '/' ∉ s ∧ s ≠ ['.'] ∧ s ≠ ['.', '.']

/-- A normalized absolute directory: `/` followed by plain segments joined
with `/`. -/
def NormalAbsDir (d : List Char) : Prop :=
  ∃ segs, segs ≠ [] ∧ (∀ s ∈ segs, GoodSeg s) ∧ d = '/' :: joinSegs segs

/-- `p` is the file `b` (non-empty, slash-free) inside the normalized
absolute directory `d`. -/
def WellFormedFile (p d b : List Char) : Prop :=
  NormalAbsDir d ∧ b ≠ [] ∧ '/' ∉ b ∧ p = d ++ '/' :: b

instance exceptDecEq {ε α : Type} [DecidableEq ε] [DecidableEq α] :
    DecidableEq (Except ε α) := fun x y =>
  match x, y with
  | .error a, .error b =>
    if h : a = b then isTrue (by rw [h])
    else isFalse (fun he => h (by injection he))
  | .ok a, .ok b =>
    if h : a = b then isTrue (by rw [h])
    else isFalse (fun he => h (by injection he))
  | .error _, .ok _ => isFalse (fun he => Except.noConfusion he)
  | .ok _, .error _ => isFalse (fun he => Except.noConfusion he)

instance goodSegDec (s : List Char) : Decidable (GoodSeg s) :=
  inferInstanceAs (Decidable (s ≠ [] ∧ '/' ∉ s ∧ s ≠ ['.'] ∧ s ≠ ['.', '.']))

end IPARenamer

namespace IPARenamer

/-! ## Helper lemmas -/

theorem sanitize_append (a b : List Char) :
    sanitize (a ++ b) = sanitize a ++ sanitize b := by
  simp [sanitize]

theorem length_sanitize (s : List Char) : (sanitize s).length = s.length := by
  simp [sanitize]

theorem sanitize_eq_nil_iff (s : List Char) : sanitize s = [] ↔ s = [] := by
  constructor
  · intro h
    have := length_sanitize s
    rw [h] at this
    exact List.length_eq_zero.mp this.symm
  · intro h
    simp [h, sanitize]

theorem not_mem_sanitize (c : Char) (hc : c ∈ reservedChars) (s : List Char) :
    c ∉ sanitize s := by
  intro hmem
  rcases List.mem_map.mp hmem with ⟨a, _, ha⟩
  by_cases hr : a ∈ reservedChars
  · rw [if_pos hr] at ha
    subst ha
    revert hc
    decide
  · rw [if_neg hr] at ha
    subst ha
    exact hr hc

theorem mem_sanitize_of_not_reserved (c : Char) (hc : c ∉ reservedChars)
    (s : List Char) (hmem : c ∈ s) : c ∈ sanitize s := by
  have : (if c ∈ reservedChars then ' ' else c) = c := if_neg hc
  rw [sanitize, ← this]
  exact List.mem_map_of_mem _ hmem

theorem slash_not_mem_sanitize (s : List Char) : '/' ∉ sanitize s :=
  not_mem_sanitize '/' (by decide) s

theorem lastIdxOf_eq_none (c : Char) (l : List Char) (h : c ∉ l) :
    lastIdxOf c l = none := by
  induction l with
  | nil => rfl
  | cons x rest ih =>
    have hx : x ≠ c := fun he => h (he ▸ List.mem_cons_self x rest)
    have hr : c ∉ rest := fun hm => h (List.mem_cons_of_mem x hm)
    simp [lastIdxOf, ih hr, hx]

theorem lastIdxOf_append (c : Char) (x y : List Char) (h : c ∉ y) :
    lastIdxOf c (x ++ c :: y) = some x.length := by
  induction x with
  | nil => simp [lastIdxOf, lastIdxOf_eq_none c y h]
  | cons a x' ih => simp [lastIdxOf, ih]

theorem lastIdxOf_lt_length (c : Char) (l : List Char) (k : Nat)
    (h : lastIdxOf c l = some k) : k < l.length := by
  induction l generalizing k with
  | nil => simp [lastIdxOf] at h
  | cons x rest ih =>
    rw [lastIdxOf] at h
    cases hr : lastIdxOf c rest with
    | some m =>
      rw [hr] at h
      injection h with h
      subst h
      exact Nat.succ_lt_succ (ih m hr)
    | none =>
      rw [hr] at h
      by_cases hx : x = c
      · rw [if_pos hx] at h
        injection h with h
        subst h
        exact Nat.succ_pos _
      · rw [if_neg hx] at h
        exact absurd h (by simp)

theorem dropTrailingSlashes_eq_self (l : List Char)
    (h : ∀ c, l.getLast? = some c → c ≠ '/') : dropTrailingSlashes l = l := by
  unfold dropTrailingSlashes
  cases hrev : l.reverse with
  | nil =>
    have : l = [] := by simpa using congrArg List.reverse hrev
    simp [this]
  | cons c t =>
    have hlast : l.getLast? = some c := by
      rw [← List.head?_reverse, hrev]
      rfl
    have hc : ¬(c = '/') := h c hlast
    rw [List.dropWhile_cons, if_neg (by simpa using hc), ← hrev, List.reverse_reverse]

theorem getLast?_append_cons (x b : List Char) (c : Char) :
    (x ++ c :: b).getLast? = (c :: b).getLast? := by
  rw [List.getLast?_append]
  cases hb : (c :: b).getLast? with
  | some v => rfl
  | none => simp at hb

theorem getLast?_ne_slash (b : List Char) (hb : b ≠ []) (hs : '/' ∉ b) :
    ∀ c, b.getLast? = some c → c ≠ '/' := by
  intro c hc he
  subst he
  exact hs (List.mem_of_mem_getLast? hc)

theorem posixBasename_append (x b : List Char) (hb : b ≠ []) (hs : '/' ∉ b) :
    posixBasename (x ++ '/' :: b) = b := by
  unfold posixBasename
  have hlast : ∀ c, (x ++ '/' :: b).getLast? = some c → c ≠ '/' := by
    intro c hc
    rw [getLast?_append_cons] at hc
    cases b with
    | nil => exact absurd rfl hb
    | cons d t =>
      apply getLast?_ne_slash (d :: t) (by simp) hs
      simpa using hc
  rw [dropTrailingSlashes_eq_self _ hlast, lastIdxOf_append '/' x b hs]
  show (x ++ '/' :: b).drop (x.length + 1) = b
  have h1 : x ++ '/' :: b = (x ++ ['/']) ++ b := by simp
  have h2 : x.length + 1 = (x ++ ['/']).length := by simp
  rw [h1, h2, List.drop_left]

theorem posixBasename_no_slash (l : List Char) (hs : '/' ∉ l) :
    posixBasename l = l := by
  have hq : dropTrailingSlashes l = l := by
    apply dropTrailingSlashes_eq_self
    intro c hc he
    subst he
    exact hs (List.mem_of_mem_getLast? hc)
  unfold posixBasename
  rw [hq, lastIdxOf_eq_none '/' l hs]

end IPARenamer

namespace IPARenamer

theorem posixDirname_append (d b : List Char) (hd : 2 ≤ d.length)
    (hb : b ≠ []) (hs : '/' ∉ b) : posixDirname (d ++ '/' :: b) = d := by
  have hne : d ++ '/' :: b ≠ [] := by simp
  have hlast : ∀ c, (d ++ '/' :: b).getLast? = some c → c ≠ '/' := by
    intro c hc
    rw [getLast?_append_cons] at hc
    cases b with
    | nil => exact absurd rfl hb
    | cons x t =>
      apply getLast?_ne_slash (x :: t) (by simp) hs
      simpa using hc
  unfold posixDirname
  rw [if_neg hne, dropTrailingSlashes_eq_self _ hlast, lastIdxOf_append '/' d b hs]
  have h0 : ¬(d.length = 0) := by omega
  have h1 : ¬((((d ++ '/' :: b).head? == some '/') && (d.length == 1)) = true) := by
    intro h
    have := (Bool.and_eq_true _ _).mp h
    have h1' : d.length = 1 := by simpa using this.2
    omega
  show (if d.length = 0 then (if ((d ++ '/' :: b).head? == some '/') = true then ['/'] else ['.'])
        else if (((d ++ '/' :: b).head? == some '/') && (d.length == 1)) = true then ['/', '/']
        else List.take d.length (d ++ '/' :: b)) = d
  rw [if_neg h0, if_neg h1, List.take_left]

theorem splitSlash_ne_nil (l : List Char) : splitSlash l ≠ [] := by
  cases l with
  | nil => simp [splitSlash]
  | cons c rest =>
    rw [splitSlash]
    by_cases hc : c = '/'
    · simp [hc]
    · rw [if_neg hc]
      cases h : splitSlash rest with
      | nil => simp
      | cons s ss => simp

theorem splitSlash_append (x y : List Char) :
    splitSlash (x ++ '/' :: y) = splitSlash x ++ splitSlash y := by
  induction x with
  | nil => simp [splitSlash]
  | cons c x' ih =>
    by_cases hc : c = '/'
    · subst hc
      show splitSlash ('/' :: (x' ++ '/' :: y)) = splitSlash ('/' :: x') ++ splitSlash y
      rw [splitSlash, if_pos rfl, splitSlash, if_pos rfl, ih]
      rfl
    · show splitSlash (c :: (x' ++ '/' :: y)) = splitSlash (c :: x') ++ splitSlash y
      rw [splitSlash, if_neg hc, splitSlash, if_neg hc, ih]
      cases h : splitSlash x' with
      | nil => exact absurd h (splitSlash_ne_nil x')
      | cons s ss => simp

theorem splitSlash_no_slash (x : List Char) (hs : '/' ∉ x) :
    splitSlash x = [x] := by
  induction x with
  | nil => rfl
  | cons c x' ih =>
    have hc : c ≠ '/' := fun he => hs (he ▸ List.mem_cons_self c x')
    have hx' : '/' ∉ x' := fun hm => hs (List.mem_cons_of_mem c hm)
    rw [splitSlash, if_neg hc, ih hx']

theorem stepSeg_good (u : Bool) (stack : List (List Char)) (s : List Char)
    (hg : GoodSeg s) : stepSeg u stack s = s :: stack := by
  obtain ⟨h1, _, h3, h4⟩ := hg
  have hne : ¬(s = [] ∨ s = ['.']) := by
    intro h
    rcases h with h | h
    · exact h1 h
    · exact h3 h
  unfold stepSeg
  rw [if_neg hne, if_neg h4]

theorem foldl_stepSeg_good (u : Bool) (segs : List (List Char))
    (hg : ∀ s ∈ segs, GoodSeg s) :
    ∀ stack, List.foldl (stepSeg u) stack segs = segs.reverse ++ stack := by
  induction segs with
  | nil => intro stack; rfl
  | cons s rest ih =>
    intro stack
    rw [List.foldl_cons, stepSeg_good u stack s (hg s (List.mem_cons_self s rest)),
      ih (fun t ht => hg t (List.mem_cons_of_mem s ht))]
    simp

theorem joinSegs_cons (s : List Char) (r : List Char) (rest : List (List Char)) :
    joinSegs (s :: r :: rest) = s ++ '/' :: joinSegs (r :: rest) := rfl

theorem joinSegs_append_singleton (segs : List (List Char)) (n : List Char)
    (h : segs ≠ []) : joinSegs (segs ++ [n]) = joinSegs segs ++ '/' :: n := by
  induction segs with
  | nil => exact absurd rfl h
  | cons s rest ih =>
    cases rest with
    | nil => rfl
    | cons r rest' =>
      have ih' := ih (by simp)
      rw [List.cons_append] at ih'
      show joinSegs (s :: ((r :: rest') ++ [n])) = _
      rw [List.cons_append, joinSegs_cons, ih', joinSegs_cons]
      simp

theorem splitSlash_joinSegs (segs : List (List Char)) (hne : segs ≠ [])
    (hs : ∀ s ∈ segs, '/' ∉ s) : splitSlash (joinSegs segs) = segs := by
  induction segs with
  | nil => exact absurd rfl hne
  | cons s rest ih =>
    cases rest with
    | nil => exact splitSlash_no_slash s (hs s (List.mem_cons_self s []))
    | cons r rest' =>
      rw [joinSegs_cons, splitSlash_append,
        splitSlash_no_slash s (hs s (List.mem_cons_self s _)),
        ih (by simp) (fun t ht => hs t (List.mem_cons_of_mem s ht))]
      rfl

theorem joinSegs_head_ne_nil (s : List Char) (rest : List (List Char))
    (hs : s ≠ []) : joinSegs (s :: rest) ≠ [] := by
  cases rest with
  | nil => exact hs
  | cons r rest' =>
    rw [joinSegs_cons]
    simp [hs]

end IPARenamer

namespace IPARenamer

theorem getLast?_append_slash (x n : List Char) (hn : n ≠ []) (hs : '/' ∉ n) :
    ∀ c, (x ++ '/' :: n).getLast? = some c → c ≠ '/' := by
  intro c hc
  rw [getLast?_append_cons] at hc
  cases n with
  | nil => exact absurd rfl hn
  | cons d t =>
    apply getLast?_ne_slash (d :: t) (by simp) hs
    simpa using hc

theorem beq_getLast?_slash_false (x n : List Char) (hn : n ≠ []) (hs : '/' ∉ n) :
    ((x ++ '/' :: n).getLast? == some '/') = false := by
  cases hq : (x ++ '/' :: n).getLast? with
  | none => rfl
  | some c =>
    have := getLast?_append_slash x n hn hs c hq
    simpa using this

theorem head?_ne_slash (n : List Char) (hs : '/' ∉ n) :
    (n.head? == some '/') = false := by
  cases n with
  | nil => rfl
  | cons c t =>
    have : c ≠ '/' := fun he => hs (he ▸ List.mem_cons_self c t)
    simpa using this

theorem stepSeg_nil_seg (u : Bool) (stack : List (List Char)) :
    stepSeg u stack [] = stack := by
  unfold stepSeg
  rw [if_pos (Or.inl rfl)]

theorem normSegsOf_join (a n : List Char) (ha : a ≠ []) (hn : GoodSeg n) :
    normSegsOf (a ++ '/' :: n) =
      (List.foldl (stepSeg (!((a ++ '/' :: n).head? == some '/'))) []
        (splitSlash a)).reverse ++ [n] := by
  obtain ⟨hn1, hn2, _, _⟩ := hn
  unfold normSegsOf
  rw [splitSlash_append, splitSlash_no_slash n hn2, List.foldl_append]
  rw [List.foldl_cons, List.foldl_nil,
    stepSeg_good _ _ n ⟨hn1, hn2, by assumption, by assumption⟩]
  simp

theorem posixJoin_normal (d n : List Char) (hd : NormalAbsDir d) (hn : GoodSeg n) :
    posixJoin d n = d ++ '/' :: n := by
  obtain ⟨segs, hner, hgood, hdef⟩ := hd
  have hn' := hn
  obtain ⟨hn1, hn2, hn3, hn4⟩ := hn'
  have hsegslash : ∀ s ∈ segs, '/' ∉ s := fun s hs => (hgood s hs).2.1
  have hseggood : ∀ s ∈ segs ++ [n], GoodSeg s := by
    intro s hs
    rcases List.mem_append.mp hs with h | h
    · exact hgood s h
    · rw [List.mem_singleton.mp h]
      exact hn
  subst hdef
  have hdne : ('/' :: joinSegs segs) ≠ [] := by simp
  rw [posixJoin, if_neg (by simp), if_neg hdne, if_neg hn1]
  have hL : ('/' :: joinSegs segs) ++ '/' :: n = '/' :: (joinSegs segs ++ '/' :: n) := by
    simp
  have hhead : ((('/' :: joinSegs segs) ++ '/' :: n).head? == some '/') = true := by
    simp
  have htrail := beq_getLast?_slash_false ('/' :: joinSegs segs) n hn1 hn2
  have hsegs : normSegsOf (('/' :: joinSegs segs) ++ '/' :: n) = segs ++ [n] := by
    unfold normSegsOf
    rw [hL, splitSlash, if_pos rfl]
    have hJ : splitSlash (joinSegs segs ++ '/' :: n) = segs ++ [n] := by
      rw [splitSlash_append, splitSlash_joinSegs segs hner hsegslash,
        splitSlash_no_slash n hn2]
    rw [hJ, List.foldl_cons, stepSeg_nil_seg, foldl_stepSeg_good _ _ hseggood]
    simp
  have hcore : joinSegs (normSegsOf (('/' :: joinSegs segs) ++ '/' :: n)) =
      joinSegs segs ++ '/' :: n := by
    rw [hsegs, joinSegs_append_singleton segs n hner]
  have hcne : joinSegs (normSegsOf (('/' :: joinSegs segs) ++ '/' :: n)) ≠ [] := by
    rw [hcore]
    simp
  rw [normalizeJoined, if_neg hcne, hhead, htrail]
  rw [if_pos rfl, if_neg (by simp), hcore]
  simp

theorem posixBasename_join (a n : List Char) (hn : GoodSeg n) :
    posixBasename (posixJoin a n) = n := by
  have hn' := hn
  obtain ⟨hn1, hn2, hn3, hn4⟩ := hn'
  by_cases ha : a = []
  · subst ha
    rw [posixJoin, if_neg (by simp [hn1]), if_pos rfl]
    have hhead := head?_ne_slash n hn2
    have htrail : (n.getLast? == some '/') = false := by
      cases hq : n.getLast? with
      | none => rfl
      | some c =>
        have : c ≠ '/' := getLast?_ne_slash n hn1 hn2 c hq
        simpa using this
    have hsegs : normSegsOf n = [n] := by
      unfold normSegsOf
      rw [splitSlash_no_slash n hn2, List.foldl_cons, List.foldl_nil,
        stepSeg_good _ _ n hn]
      rfl
    rw [normalizeJoined, hsegs]
    have hjn : joinSegs [n] = n := rfl
    rw [hjn, if_neg hn1, hhead, htrail]
    rw [if_neg (by simp), if_neg (by simp)]
    rw [List.append_nil]
    exact posixBasename_no_slash n hn2
  · rw [posixJoin, if_neg (by simp [ha]), if_neg ha, if_neg hn1]
    have htrail := beq_getLast?_slash_false a n hn1 hn2
    rw [normalizeJoined, normSegsOf_join a n ha hn]
    set S := (List.foldl (stepSeg (!((a ++ '/' :: n).head? == some '/'))) []
      (splitSlash a)).reverse with hS
    have hcne : joinSegs (S ++ [n]) ≠ [] := by
      cases hSe : S with
      | nil => simpa using hn1
      | cons s rest =>
        rw [joinSegs_append_singleton (s :: rest) n (by simp)]
        simp
    rw [if_neg hcne, htrail]
    have hfalse : ¬(false = true) := by simp
    rw [if_neg hfalse, List.append_nil]
    cases hSe : S with
    | nil =>
      have hjn : joinSegs ([] ++ [n]) = n := rfl
      rw [hSe] at *
      rw [hjn]
      cases hAbs : ((a ++ '/' :: n).head? == some '/') with
      | false =>
        rw [if_neg (by simp [hAbs])]
        exact posixBasename_no_slash n hn2
      | true =>
        rw [if_pos (by simp [hAbs])]
        have : '/' :: n = [] ++ '/' :: n := rfl
        rw [this]
        exact posixBasename_append [] n hn1 hn2
    | cons s rest =>
      rw [joinSegs_append_singleton (s :: rest) n (by simp)]
      cases hAbs : ((a ++ '/' :: n).head? == some '/') with
      | false =>
        rw [if_neg (by simp [hAbs])]
        exact posixBasename_append _ n hn1 hn2
      | true =>
        rw [if_pos (by simp [hAbs])]
        have : '/' :: (joinSegs (s :: rest) ++ '/' :: n) =
            ('/' :: joinSegs (s :: rest)) ++ '/' :: n := by simp
        rw [this]
        exact posixBasename_append _ n hn1 hn2

end IPARenamer

namespace IPARenamer

theorem NormalAbsDir_two_le (d : List Char) (hd : NormalAbsDir d) :
    2 ≤ d.length := by
  obtain ⟨segs, hner, hgood, hdef⟩ := hd
  subst hdef
  cases segs with
  | nil => exact absurd rfl hner
  | cons s rest =>
    have hs : s ≠ [] := (hgood s (List.mem_cons_self s rest)).1
    have := joinSegs_head_ne_nil s rest hs
    have hpos : 0 < (joinSegs (s :: rest)).length := List.length_pos.mpr this
    simp only [List.length_cons]
    omega

theorem posixDirname_wf (p d b : List Char) (hwf : WellFormedFile p d b) :
    posixDirname p = d := by
  obtain ⟨hdir, hb1, hb2, hp⟩ := hwf
  rw [hp]
  exact posixDirname_append d b (NormalAbsDir_two_le d hdir) hb1 hb2

theorem posixBasename_wf (p d b : List Char) (hwf : WellFormedFile p d b) :
    posixBasename p = b := by
  obtain ⟨_, hb1, hb2, hp⟩ := hwf
  rw [hp]
  exact posixBasename_append d b hb1 hb2

theorem posixExtname_wf (p d b : List Char) (hwf : WellFormedFile p d b) :
    posixExtname p = extOfPart b := by
  rw [posixExtname, posixBasename_wf p d b hwf]

theorem dash_mem_plannedName (io : Bool) (info : AppMetadata)
    (fileExt p : List Char) : '–' ∈ plannedName io info fileExt p := by
  unfold plannedName
  apply mem_sanitize_of_not_reserved '–' (by decide)
  apply List.mem_append_left
  apply List.mem_append_left
  apply List.mem_append_left
  apply List.mem_append_right
  decide

theorem goodSeg_plannedName (io : Bool) (info : AppMetadata)
    (fileExt p : List Char) : GoodSeg (plannedName io info fileExt p) := by
  have hd := dash_mem_plannedName io info fileExt p
  refine ⟨List.ne_nil_of_mem hd, ?_, ?_, ?_⟩
  · unfold plannedName
    exact slash_not_mem_sanitize _
  · intro h
    rw [h] at hd
    exact absurd hd (by decide)
  · intro h
    rw [h] at hd
    exact absurd hd (by decide)

theorem concat_eq_iff (d x y : List Char) :
    (d ++ '/' :: x = d ++ '/' :: y) ↔ x = y := by
  constructor
  · intro h
    have h2 := List.append_cancel_left h
    injection h2
  · intro h
    rw [h]

theorem getNewFilePath_eq (io : Bool) (info : AppMetadata)
    (fileExt p d b : List Char) (hwf : WellFormedFile p d b) :
    getNewFilePath io info fileExt p =
      (if plannedName io info fileExt p = b then none
       else some (d ++ '/' :: plannedName io info fileExt p)) := by
  have hwf' := hwf
  obtain ⟨hdir, hb1, hb2, hp⟩ := hwf'
  have hgood := goodSeg_plannedName io info fileExt p
  have hdirname : posixDirname p = d := posixDirname_wf p d b hwf
  have hshape : getNewFilePath io info fileExt p =
      (if posixJoin (posixDirname p) (plannedName io info fileExt p) = p
       then none
       else some (posixJoin (posixDirname p) (plannedName io info fileExt p))) :=
    rfl
  rw [hshape, hdirname, posixJoin_normal d _ hdir hgood]
  by_cases hpb : plannedName io info fileExt p = b
  · rw [if_pos (by rw [hpb, hp]), if_pos hpb]
  · rw [if_neg ?_, if_neg hpb]
    intro h
    apply hpb
    have h2 : d ++ '/' :: plannedName io info fileExt p = d ++ '/' :: b := by
      rw [← hp]
      exact h
    exact (concat_eq_iff d _ b).mp h2

theorem extOfPart_append_tail (x tail : List Char) (hx : x ≠ [])
    (htl : '.' ∉ tail) (htne : tail ≠ []) :
    extOfPart (x ++ '.' :: tail) = '.' :: tail := by
  have hlen : (x ++ '.' :: tail).length = x.length + 1 + tail.length := by
    simp
    omega
  have hxpos : 0 < x.length := List.length_pos.mpr hx
  have htpos : 0 < tail.length := List.length_pos.mpr htne
  have h0 : ¬(x.length = 0) := by omega
  have hdd : ¬(x ++ '.' :: tail = ['.', '.']) := by
    intro h
    have := congrArg List.length h
    rw [hlen] at this
    simp at this
    omega
  unfold extOfPart
  rw [lastIdxOf_append '.' x tail htl]
  simp only [extOfPartAux]
  rw [if_neg h0, if_neg hdd]
  exact List.drop_left x ('.' :: tail)

theorem extOfPart_sanitize_ipa (X : List Char) (hX : '–' ∈ X) :
    extOfPart (sanitize (X ++ ".ipa".toList)) = ".ipa".toList := by
  rw [sanitize_append]
  have hip : sanitize ".ipa".toList = '.' :: "ipa".toList := by decide
  rw [hip]
  exact extOfPart_append_tail (sanitize X) ("ipa".toList)
    (List.ne_nil_of_mem (mem_sanitize_of_not_reserved '–' (by decide) X hX))
    (by decide) (by decide)

theorem extOfPart_plannedName_ipa (io : Bool) (info : AppMetadata)
    (p : List Char) :
    extOfPart (plannedName io info ".ipa".toList p) = ".ipa".toList := by
  unfold plannedName
  apply extOfPart_sanitize_ipa
  apply List.mem_append_left
  apply List.mem_append_left
  apply List.mem_append_right
  decide

end IPARenamer

namespace IPARenamer

theorem extOfPart_ne_nil_elim (b : List Char) (h : extOfPart b ≠ []) :
    ∃ sd, lastIdxOf '.' b = some sd ∧ 1 ≤ sd ∧ sd < b.length ∧
      extOfPart b = b.drop sd := by
  cases hidx : lastIdxOf '.' b with
  | none =>
    rw [extOfPart, hidx] at h
    exact absurd rfl h
  | some sd =>
    rw [extOfPart, hidx] at h
    simp only [extOfPartAux] at h
    by_cases h0 : sd = 0
    · rw [if_pos h0] at h
      exact absurd rfl h
    · rw [if_neg h0] at h
      by_cases hdd : b = ['.', '.']
      · rw [if_pos hdd] at h
        exact absurd rfl h
      · refine ⟨sd, rfl, by omega, lastIdxOf_lt_length '.' b sd hidx, ?_⟩
        rw [extOfPart, hidx]
        simp only [extOfPartAux]
        rw [if_neg h0, if_neg hdd]

theorem endsWithExt_drop (b : List Char) (sd : Nat) (hsd : sd ≤ b.length) :
    endsWithExt b (b.drop sd) = true := by
  unfold endsWithExt
  have hlen : (b.drop sd).length = b.length - sd := by simp
  rw [hlen]
  have h1 : b.length - sd ≤ b.length := by omega
  have h2 : b.length - (b.length - sd) = sd := by omega
  rw [h2]
  simp [h1]

theorem posixBasenameExt_strip (p d b : List Char) (sd : Nat)
    (hwf : WellFormedFile p d b) (h1 : 1 ≤ sd) (h2 : sd < b.length) :
    posixBasenameExt p (b.drop sd) = b.take sd := by
  have hb : posixBasename p = b := posixBasename_wf p d b hwf
  have hlen : (b.drop sd).length = b.length - sd := by simp
  unfold posixBasenameExt
  rw [hb]
  have hcond : b.drop sd ≠ [] ∧ b.drop sd ≠ b ∧ endsWithExt b (b.drop sd) := by
    refine ⟨?_, ?_, endsWithExt_drop b sd (by omega)⟩
    · intro he
      have := congrArg List.length he
      rw [hlen] at this
      simp at this
      omega
    · intro he
      have := congrArg List.length he
      rw [hlen] at this
      omega
  rw [if_pos hcond, hlen]
  have h3 : b.length - (b.length - sd) = sd := by omega
  rw [h3]

theorem length_plannedName_gt (info : AppMetadata) (p d b : List Char)
    (hwf : WellFormedFile p d b) (hext : posixExtname p ≠ []) :
    b.length < (plannedName true info (toLowerList (posixExtname p)) p).length := by
  have hextb : posixExtname p = extOfPart b := posixExtname_wf p d b hwf
  rw [hextb] at hext ⊢
  obtain ⟨sd, hidx, h1, h2, hdrop⟩ := extOfPart_ne_nil_elim b hext
  rw [hdrop]
  have hstrip : posixBasenameExt p (List.drop sd b) = b.take sd :=
    posixBasenameExt_strip p d b sd hwf h1 h2
  unfold plannedName
  rw [length_sanitize]
  rw [if_pos rfl, hextb, hdrop, hstrip]
  simp only [List.length_append, List.length_map, List.length_take,
    List.length_drop, toLowerList]
  have htake : min sd b.length = sd := by omega
  rw [htake]
  have hdash : 0 < (" –".toList).length := by decide
  have harr : 0 < (" ↔ ".toList).length := by decide
  omega

end IPARenamer

namespace IPARenamer

theorem segSuffixAux_iff (r : List Char) :
    segSuffixAux r = true ↔ ∃ seg, r = seg ++ appSuffix ∧ seg ≠ [] ∧ '/' ∉ seg := by
  induction r with
  | nil =>
    constructor
    · intro h
      simp [segSuffixAux] at h
    · rintro ⟨seg, h, -, -⟩
      have h2 := List.append_eq_nil.mp h.symm
      exact absurd h2.2 (by decide)
  | cons c rest ih =>
    by_cases hc : c = '/'
    · subst hc
      rw [segSuffixAux, if_pos rfl]
      constructor
      · intro h
        simp at h
      · rintro ⟨seg, h, hne, hs⟩
        cases seg with
        | nil => exact absurd rfl hne
        | cons a seg' =>
          rw [List.cons_append] at h
          injection h with h1 h2
          subst h1
          exact absurd (List.mem_cons_self '/' seg') hs
    · rw [segSuffixAux, if_neg hc, Bool.or_eq_true, beq_iff_eq]
      constructor
      · rintro (h | h)
        · refine ⟨[c], by rw [List.cons_append, h]; rfl, by simp, ?_⟩
          intro hm
          exact hc (List.mem_singleton.mp hm).symm
        · obtain ⟨seg, hsg, hne, hs⟩ := ih.mp h
          refine ⟨c :: seg, by rw [List.cons_append, hsg], by simp, ?_⟩
          intro hm
          rcases List.mem_cons.mp hm with h1 | h1
          · exact hc h1.symm
          · exact hs h1
      · rintro ⟨seg, hsg, hne, hs⟩
        cases seg with
        | nil => exact absurd rfl hne
        | cons a seg' =>
          rw [List.cons_append] at hsg
          injection hsg with h1 h2
          by_cases hseg' : seg' = []
          · subst hseg'
            left
            simpa using h2
          · right
            apply ih.mpr
            exact ⟨seg', h2, hseg', fun hm => hs (List.mem_cons_of_mem a hm)⟩

theorem anchoredPayloadMatch_iff (l : List Char) :
    anchoredPayloadMatch l = true ↔
      ∃ seg, l = payloadHead ++ seg ++ appSuffix ∧ seg ≠ [] ∧ '/' ∉ seg := by
  unfold anchoredPayloadMatch
  rw [Bool.and_eq_true, List.isPrefixOf_iff_prefix]
  constructor
  · rintro ⟨⟨t, ht⟩, hseg⟩
    have hdrop : l.drop payloadHead.length = t := by
      rw [← ht]
      exact List.drop_left _ _
    rw [hdrop] at hseg
    obtain ⟨seg, hsg, hne, hs⟩ := (segSuffixAux_iff t).mp hseg
    refine ⟨seg, ?_, hne, hs⟩
    rw [← ht, hsg, List.append_assoc]
  · rintro ⟨seg, hl, hne, hs⟩
    constructor
    · exact ⟨seg ++ appSuffix, by rw [hl, List.append_assoc]⟩
    · have hdrop : l.drop payloadHead.length = seg ++ appSuffix := by
        rw [hl, List.append_assoc]
        exact List.drop_left _ _
      rw [hdrop]
      exact (segSuffixAux_iff _).mpr ⟨seg, rfl, hne, hs⟩

theorem testManifestRegex_iff (l : List Char) :
    testManifestRegex l = true ↔ SuffixPatMatch l := by
  induction l with
  | nil =>
    constructor
    · intro h
      simp [testManifestRegex] at h
    · rintro ⟨pre, seg, hl, -, -⟩
      have h2 := List.append_eq_nil.mp hl.symm
      exact absurd h2.2 (by decide)
  | cons c rest ih =>
    have hstep : testManifestRegex (c :: rest) =
        (anchoredPayloadMatch (c :: rest) || testManifestRegex rest) := rfl
    rw [hstep, Bool.or_eq_true]
    constructor
    · rintro (h | h)
      · obtain ⟨seg, hl, hne, hs⟩ := (anchoredPayloadMatch_iff _).mp h
        refine ⟨[], seg, ?_, hne, hs⟩
        rw [hl]
        simp
      · obtain ⟨pre, seg, hl, hne, hs⟩ := ih.mp h
        refine ⟨c :: pre, seg, ?_, hne, hs⟩
        rw [List.cons_append, List.cons_append, List.cons_append, hl]
    · rintro ⟨pre, seg, hl, hne, hs⟩
      cases pre with
      | nil =>
        left
        apply (anchoredPayloadMatch_iff _).mpr
        refine ⟨seg, ?_, hne, hs⟩
        simpa using hl
      | cons a pre' =>
        right
        apply ih.mpr
        rw [List.cons_append, List.cons_append, List.cons_append] at hl
        injection hl with h1 h2
        exact ⟨pre', seg, h2, hne, hs⟩

theorem find?_eq_some_split (p : List Char → Bool) (l : List (List Char))
    (x : List Char) (h : l.find? p = some x) :
    p x = true ∧ ∃ pre suf, l = pre ++ x :: suf ∧ ∀ y ∈ pre, p y = false := by
  induction l with
  | nil => simp at h
  | cons a rest ih =>
    by_cases hp : p a = true
    · simp only [List.find?_cons, hp] at h
      injection h with h
      subst h
      exact ⟨hp, [], rest, rfl, by simp⟩
    · rw [Bool.not_eq_true] at hp
      simp only [List.find?_cons, hp] at h
      obtain ⟨hx, pre, suf, hsplit, hpre⟩ := ih h
      refine ⟨hx, a :: pre, suf, by rw [hsplit]; rfl, ?_⟩
      intro y hy
      rcases List.mem_cons.mp hy with h1 | h1
      · rw [h1]
        exact hp
      · exact hpre y h1

end IPARenamer

namespace IPARenamer

theorem appNameOf_chain (vs : List JSValue) (last : JSValue)
    (hvs : ∀ v ∈ vs, strOrUndef v = true) (hlast : strOrUndef last = true) :
    appNameOf (chainOr vs last) =
      Except.ok (match specFirstNonEmpty (vs ++ [last]) with
        | some s => sanitize s
        | none => unknownName) := by
  induction vs with
  | nil =>
    cases last with
    | str s =>
      cases s with
      | nil => rfl
      | cons a t => rfl
    | undefined => rfl
    | num n => exact Bool.noConfusion hlast
    | bool b => exact Bool.noConfusion hlast
    | null => exact Bool.noConfusion hlast
  | cons v rest ih =>
    have hv := hvs v (List.mem_cons_self v rest)
    have hrest : ∀ x ∈ rest, strOrUndef x = true :=
      fun x hx => hvs x (List.mem_cons_of_mem v hx)
    cases v with
    | str s =>
      cases s with
      | nil => exact ih hrest
      | cons a t => rfl
    | undefined => exact ih hrest
    | num n => exact Bool.noConfusion hv
    | bool b => exact Bool.noConfusion hv
    | null => exact Bool.noConfusion hv

theorem version_chain (vs : List JSValue) (hvs : ∀ v ∈ vs, strOrUndef v = true) :
    (if truthy (chainOr vs .null)
     then " [v".toList ++ jsToString (chainOr vs .null) ++ "]".toList
     else []) =
      (match specFirstNonEmpty vs with
       | some s => " [v".toList ++ s ++ "]".toList
       | none => []) := by
  induction vs with
  | nil => rfl
  | cons v rest ih =>
    have hv := hvs v (List.mem_cons_self v rest)
    have hrest : ∀ x ∈ rest, strOrUndef x = true :=
      fun x hx => hvs x (List.mem_cons_of_mem v hx)
    cases v with
    | str s =>
      cases s with
      | nil => exact ih hrest
      | cons a t => rfl
    | undefined => exact ih hrest
    | num n => exact Bool.noConfusion hv
    | bool b => exact Bool.noConfusion hv
    | null => exact Bool.noConfusion hv

theorem minIOS_value (m : JSValue) (hm : strOrUndef m = true)
    (hne : m ≠ .str []) :
    jsToString (jsOr m (.str "0.0.0".toList)) = specMinValue m := by
  cases m with
  | str s =>
    cases s with
    | nil => exact absurd rfl hne
    | cons a t => rfl
  | undefined => rfl
  | num n => exact Bool.noConfusion hm
  | bool b => exact Bool.noConfusion hm
  | null => exact Bool.noConfusion hm

theorem jsOr_eq_or (a b : JSValue) : jsOr a b = a ∨ jsOr a b = b := by
  unfold jsOr
  by_cases h : truthy a = true
  · left
    rw [if_pos h]
  · right
    rw [if_neg h]

theorem strOrNullish_jsOr (a b : JSValue) (ha : strOrNullish a = true)
    (hb : strOrNullish b = true) : strOrNullish (jsOr a b) = true := by
  rcases jsOr_eq_or a b with h | h <;> rw [h] <;> assumption

end IPARenamer

namespace IPARenamer

theorem char_toNat_ofNat (n : Nat)
    (h : n < 0xD800 ∨ (0xDFFF < n ∧ n < 0x110000)) :
    (Char.ofNat n).toNat = n := by
  unfold Char.ofNat
  rw [dif_pos h]
  rfl

theorem replChar_toNat : replChar.toNat = 0xFFFD := rfl

theorem decodeMulti_fst_ge (numCont leadVal lo hi : Nat) (bytes : List Nat)
    (hlo : 0x80 ≤ lo) (hhi : hi < 0x110000) :
    0x80 ≤ (decodeMulti numCont leadVal lo hi bytes).1.toNat := by
  unfold decodeMulti
  cases htc : takeCont numCont leadVal bytes with
  | none => rw [replChar_toNat]; omega
  | some vr =>
    obtain ⟨v, rest⟩ := vr
    show 0x80 ≤ (if lo ≤ v ∧ v ≤ hi ∧ ¬(0xD800 ≤ v ∧ v ≤ 0xDFFF)
      then ((Char.ofNat v : Char), rest) else (replChar, bytes)).1.toNat
    by_cases hrange : lo ≤ v ∧ v ≤ hi ∧ ¬(0xD800 ≤ v ∧ v ≤ 0xDFFF)
    · rw [if_pos hrange]
      obtain ⟨hr1, hr2, hr3⟩ := hrange
      have hvalid : v < 0xD800 ∨ (0xDFFF < v ∧ v < 0x110000) := by omega
      show 0x80 ≤ (Char.ofNat v).toNat
      rw [char_toNat_ofNat v hvalid]
      omega
    · rw [if_neg hrange]
      rw [replChar_toNat]
      omega

theorem takeCont_length (numCont : Nat) :
    ∀ (v : Nat) (l : List Nat) (w : Nat) (r : List Nat),
      takeCont numCont v l = some (w, r) → r.length ≤ l.length := by
  induction numCont with
  | zero =>
    intro v l w r h
    rw [takeCont] at h
    injection h with h
    injection h with h1 h2
    rw [← h2]
  | succ n ih =>
    intro v l w r h
    cases l with
    | nil => exact absurd h (by rw [takeCont]; simp)
    | cons b rest =>
      rw [takeCont] at h
      by_cases hb : 0x80 ≤ b ∧ b < 0xC0
      · rw [if_pos hb] at h
        have := ih _ rest w r h
        simp only [List.length_cons]
        omega
      · rw [if_neg hb] at h
        exact absurd h (by simp)

theorem decodeMulti_snd_length (numCont leadVal lo hi : Nat) (bytes : List Nat) :
    (decodeMulti numCont leadVal lo hi bytes).2.length ≤ bytes.length := by
  unfold decodeMulti
  cases htc : takeCont numCont leadVal bytes with
  | none => simp
  | some vr =>
    obtain ⟨v, rest⟩ := vr
    show (if lo ≤ v ∧ v ≤ hi ∧ ¬(0xD800 ≤ v ∧ v ≤ 0xDFFF)
      then ((Char.ofNat v : Char), rest) else (replChar, bytes)).2.length ≤ bytes.length
    by_cases hrange : lo ≤ v ∧ v ≤ hi ∧ ¬(0xD800 ≤ v ∧ v ≤ 0xDFFF)
    · rw [if_pos hrange]
      exact takeCont_length numCont leadVal bytes v rest htc
    · rw [if_neg hrange]

theorem utf8Step_fst_ge (b : Nat) (rest : List Nat) :
    0x80 ≤ (utf8Step b rest).1.toNat := by
  unfold utf8Step
  by_cases h1 : 0xC2 ≤ b ∧ b ≤ 0xDF
  · rw [if_pos h1]
    exact decodeMulti_fst_ge _ _ _ _ _ (by omega) (by omega)
  · rw [if_neg h1]
    by_cases h2 : 0xE0 ≤ b ∧ b ≤ 0xEF
    · rw [if_pos h2]
      exact decodeMulti_fst_ge _ _ _ _ _ (by omega) (by omega)
    · rw [if_neg h2]
      by_cases h3 : 0xF0 ≤ b ∧ b ≤ 0xF4
      · rw [if_pos h3]
        exact decodeMulti_fst_ge _ _ _ _ _ (by omega) (by omega)
      · rw [if_neg h3]
        rw [replChar_toNat]
        omega

theorem utf8Step_snd_length (b : Nat) (rest : List Nat) :
    (utf8Step b rest).2.length ≤ rest.length := by
  unfold utf8Step
  by_cases h1 : 0xC2 ≤ b ∧ b ≤ 0xDF
  · rw [if_pos h1]
    exact decodeMulti_snd_length _ _ _ _ _
  · rw [if_neg h1]
    by_cases h2 : 0xE0 ≤ b ∧ b ≤ 0xEF
    · rw [if_pos h2]
      exact decodeMulti_snd_length _ _ _ _ _
    · rw [if_neg h2]
      by_cases h3 : 0xF0 ≤ b ∧ b ≤ 0xF4
      · rw [if_pos h3]
        exact decodeMulti_snd_length _ _ _ _ _
      · rw [if_neg h3]

theorem utf8DecodeAux_eq_ascii (fuel : Nat) :
    ∀ (bytes : List Nat) (cs : List Char), bytes.length ≤ fuel →
      (∀ c ∈ cs, c.toNat < 0x80) →
      (utf8DecodeAux fuel bytes = cs ↔ bytes = cs.map Char.toNat) := by
  induction fuel with
  | zero =>
    intro bytes cs hlen hcs
    have hb : bytes = [] := List.length_eq_zero.mp (by omega)
    subst hb
    rw [utf8DecodeAux]
    constructor
    · intro h
      rw [← h]
      rfl
    · intro h
      cases cs with
      | nil => rfl
      | cons c cs' => exact absurd h (by simp)
  | succ n ih =>
    intro bytes cs hlen hcs
    cases bytes with
    | nil =>
      rw [utf8DecodeAux]
      constructor
      · intro h
        rw [← h]
        rfl
      · intro h
        cases cs with
        | nil => rfl
        | cons c cs' => exact absurd h (by simp)
    | cons b rest =>
      rw [utf8DecodeAux]
      by_cases hb : b < 0x80
      · rw [if_pos hb]
        cases cs with
        | nil =>
          constructor
          · intro h
            exact absurd h (by simp)
          · intro h
            exact absurd h (by simp)
        | cons c cs' =>
          have hc : c.toNat < 0x80 := hcs c (List.mem_cons_self c cs')
          have hcs' : ∀ x ∈ cs', x.toNat < 0x80 :=
            fun x hx => hcs x (List.mem_cons_of_mem c hx)
          have hlen' : rest.length ≤ n := by
            simp only [List.length_cons] at hlen
            omega
          constructor
          · intro h
            injection h with h1 h2
            have hbc : b = c.toNat := by
              rw [← h1]
              exact (char_toNat_ofNat b (by omega)).symm
            rw [List.map_cons, ← hbc]
            have := (ih rest cs' hlen' hcs').mp h2
            rw [this]
          · intro h
            rw [List.map_cons] at h
            injection h with h1 h2
            have hofnat : Char.ofNat b = c := by
              rw [h1, Char.ofNat_toNat]
            rw [hofnat, (ih rest cs' hlen' hcs').mpr h2]
      · rw [if_neg hb]
        constructor
        · intro h
          cases cs with
          | nil => exact absurd h (by simp)
          | cons c cs' =>
            have hc : c.toNat < 0x80 := hcs c (List.mem_cons_self c cs')
            have hge := utf8Step_fst_ge b rest
            injection h with h1 h2
            rw [h1] at hge
            omega
        · intro h
          cases cs with
          | nil => exact absurd h (by simp)
          | cons c cs' =>
            have hc : c.toNat < 0x80 := hcs c (List.mem_cons_self c cs')
            rw [List.map_cons] at h
            injection h with h1 h2
            omega

theorem utf8Decode_eq_ascii (bytes : List Nat) (cs : List Char)
    (hcs : ∀ c ∈ cs, c.toNat < 0x80) :
    (utf8Decode bytes = cs ↔ bytes = cs.map Char.toNat) :=
  utf8DecodeAux_eq_ascii bytes.length bytes cs (Nat.le_refl _) hcs

theorem isBinaryPlist_iff (bytes : List Nat) :
    isBinaryPlist bytes = true ↔ bytes.take 6 = bplistSig := by
  unfold isBinaryPlist
  rw [beq_iff_eq]
  have hmk : (bufferToString (bytes.take 6) = "bplist") ↔
      (utf8Decode (bytes.take 6) = "bplist".data) := by
    unfold bufferToString
    constructor
    · intro h
      exact congrArg String.data h
    · intro h
      rw [show "bplist" = String.mk "bplist".data from rfl, ← h]
  rw [hmk, utf8Decode_eq_ascii _ _ (by decide)]
  have hsig : List.map Char.toNat "bplist".data = bplistSig := by decide
  rw [hsig]

end IPARenamer

namespace IPARenamer

/-! ## Claim theorems -/

/-- Claim C1, counterexample: with the default `INCLUDE_ORIGINAL_NAME = true`
the pipeline is not idempotent. The first run renames `/r/game.ipa`; the
second run, on the renamed file of the same archive, plans and performs yet
another rename (the candidate grows by one more `↔` segment) instead of
reporting the already-renamed outcome. -/
theorem c1_counterexample :
    processOne INCLUDE_ORIGINAL_NAME sampleArchive true "/r/game.ipa".toList =
      .ok (.renamed "/r/game ↔ My App – [v2.1] [iOS 14.0].ipa".toList) ∧
    processOne INCLUDE_ORIGINAL_NAME sampleArchive true
        "/r/game ↔ My App – [v2.1] [iOS 14.0].ipa".toList =
      .ok (.renamed
        "/r/game ↔ My App – [v2.1] [iOS 14.0] ↔ My App – [v2.1] [iOS 14.0].ipa".toList) ∧
    processOne INCLUDE_ORIGINAL_NAME sampleArchive true
        "/r/game ↔ My App – [v2.1] [iOS 14.0].ipa".toList ≠
      .ok .alreadyNamed := by
  refine ⟨by decide, by decide, by decide⟩

/-- Claim C1 (amended): the planner's `none` sentinel fires exactly when the
candidate equals the original path, and with `includeOriginalName = false`
this makes the pipeline idempotent: a second run on the file renamed by a
first run reports the already-renamed outcome and performs no rename. With
the default `includeOriginalName = true` the candidate strictly extends the
original basename and the fixed point is never reached (see the
counterexample). -/
theorem c1_fixed_point_without_original_name
    (a : Archive) (info : AppMetadata) (rok rok2 : Bool)
    (p d b t : List Char)
    (hwf : WellFormedFile p d b)
    (hext : toLowerList (posixExtname p) = ".ipa".toList)
    (hinfo : extractInfoFromIPA a = .ok (some info))
    (hrun1 : processOne false a rok p = .ok (.renamed t)) :
    processOne false a rok2 t = .ok .alreadyNamed := by
  have hpo1 : processOne false a rok p =
      (match getNewFilePath false info (".ipa".toList) p with
       | none => Except.ok Outcome.alreadyNamed
       | some np =>
         if rok then Except.ok (Outcome.renamed np)
         else Except.ok Outcome.renameFailed) := by
    unfold processOne
    rw [hext, hinfo, if_neg (by decide)]
  have hplan := getNewFilePath_eq false info ".ipa".toList p d b hwf
  rw [hplan] at hpo1
  by_cases hpb : plannedName false info ".ipa".toList p = b
  · rw [if_pos hpb] at hpo1
    have hpo2 : processOne false a rok p = Except.ok Outcome.alreadyNamed := hpo1
    rw [hpo2] at hrun1
    exact absurd hrun1 (by simp)
  · rw [if_neg hpb] at hpo1
    have hpo2 : processOne false a rok p =
        (if rok then Except.ok (Outcome.renamed
            (d ++ '/' :: plannedName false info ".ipa".toList p))
         else Except.ok Outcome.renameFailed) := hpo1
    rw [hpo2] at hrun1
    cases rok with
    | false =>
      rw [if_neg (by simp)] at hrun1
      exact absurd hrun1 (by simp)
    | true =>
      rw [if_pos rfl] at hrun1
      have ht : t = d ++ '/' :: plannedName false info ".ipa".toList p := by
        injection hrun1 with h
        injection h with h
        exact h.symm
      have hgood := goodSeg_plannedName false info ".ipa".toList p
      have hwf2 : WellFormedFile t d (plannedName false info ".ipa".toList p) :=
        ⟨hwf.1, hgood.1, hgood.2.1, ht⟩
      have hext2 : posixExtname t = ".ipa".toList := by
        rw [posixExtname_wf t d _ hwf2]
        exact extOfPart_plannedName_ipa false info p
      have htlow2 : toLowerList (posixExtname t) = ".ipa".toList := by
        rw [hext2]
        decide
      have hplan2 := getNewFilePath_eq false info ".ipa".toList t d
        (plannedName false info ".ipa".toList p) hwf2
      have hindep : plannedName false info ".ipa".toList t =
          plannedName false info ".ipa".toList p := rfl
      have hplan2none : getNewFilePath false info ".ipa".toList t = none := by
        rw [hplan2, if_pos hindep]
      have hfinal : processOne false a rok2 t =
          (match getNewFilePath false info ".ipa".toList t with
           | none => Except.ok Outcome.alreadyNamed
           | some np =>
             if rok2 then Except.ok (Outcome.renamed np)
             else Except.ok Outcome.renameFailed) := by
        unfold processOne
        rw [htlow2, hinfo, if_neg (by decide)]
      rw [hfinal, hplan2none]

/-- Claim C1 witness: a concrete idempotent second run with
`includeOriginalName = false`. -/
theorem c1_witness :
    processOne false sampleArchive true
      "/r/My App – [v2.1] [iOS 14.0].ipa".toList = .ok .alreadyNamed :=
  c1_fixed_point_without_original_name sampleArchive
    ⟨"My App".toList, " [v2.1]".toList, " [iOS 14.0]".toList⟩ true true
    "/r/game.ipa".toList "/r".toList "game.ipa".toList
    "/r/My App – [v2.1] [iOS 14.0].ipa".toList
    ⟨⟨["r".toList], by decide, by decide, by decide⟩, by decide, by decide,
      by decide⟩
    (by decide) (by decide) (by decide)

/-- Claim C2, counterexample: on the spec's own end-to-end input the derived
basename is `game ↔ My App – [v2.1] [iOS 14.0].ipa` — the version field is
formatted with a leading space, so a space separates `–` from `[v2.1]` —
and not the claimed `game ↔ My App –[v2.1] [iOS 14.0].ipa`. -/
theorem c2_counterexample :
    processOne INCLUDE_ORIGINAL_NAME sampleArchive true "game.ipa".toList =
      .ok (.renamed "game ↔ My App – [v2.1] [iOS 14.0].ipa".toList) ∧
    "game ↔ My App – [v2.1] [iOS 14.0].ipa".toList ≠
      "game ↔ My App –[v2.1] [iOS 14.0].ipa".toList := by
  refine ⟨by decide, by decide⟩

/-- Claim C2 (amended): for the textual manifest `{CFBundleDisplayName:
"My App", CFBundleShortVersionString: "2.1", MinimumOSVersion: "14.0"}`,
original file `game.ipa` and `includeOriginalName = true`, the extractor
yields `{appName: "My App", version: " [v2.1]", minIOS: " [iOS 14.0]"}` and
the planner produces exactly the target basename
`game ↔ My App – [v2.1] [iOS 14.0].ipa` (template: original basename,
` ↔ `, appName, ` –`, version, minPlatform, extension). -/
theorem c2_end_to_end_rename :
    extractInfo sampleManifest =
      .ok ⟨"My App".toList, " [v2.1]".toList, " [iOS 14.0]".toList⟩ ∧
    getNewFilePath INCLUDE_ORIGINAL_NAME
        ⟨"My App".toList, " [v2.1]".toList, " [iOS 14.0]".toList⟩
        ".ipa".toList "game.ipa".toList =
      some "game ↔ My App – [v2.1] [iOS 14.0].ipa".toList ∧
    processOne INCLUDE_ORIGINAL_NAME sampleArchive true "game.ipa".toList =
      .ok (.renamed "game ↔ My App – [v2.1] [iOS 14.0].ipa".toList) := by
  refine ⟨by decide, by decide, by decide⟩

/-- Claim C3, counterexample: the claim does not hold for every
DecodedManifest. With the truthy non-string `true` under
`CFBundleDisplayName` the extractor raises a `TypeError` instead of
yielding the described record; and with `MinimumOSVersion` present but
empty the code yields ` [iOS 0.0.0]` although the claim defaults only when
the key is absent (the spec-modelled value is ` [iOS ]`). -/
theorem c3_counterexample :
    extractInfo ⟨.bool true, .undefined, .undefined, .undefined, .undefined,
      .undefined, .undefined⟩ = .error () ∧
    extractInfo ⟨.str "A".toList, .undefined, .undefined, .undefined,
        .undefined, .undefined, .str []⟩ =
      .ok ⟨"A".toList, [], " [iOS 0.0.0]".toList⟩ ∧
    specMinPlatform ⟨.str "A".toList, .undefined, .undefined, .undefined,
        .undefined, .undefined, .str []⟩ = " [iOS ]".toList ∧
    " [iOS 0.0.0]".toList ≠ " [iOS ]".toList := by
  refine ⟨rfl, by decide, by decide, by decide⟩

/-- Claim C3 (amended): on every manifest whose recognized keys hold strings
or are absent, the extractor returns exactly the spec-modelled record —
first non-empty name key sanitized (fallback `UnknownName`), first
non-empty version key as ` [v<value>]` (else empty), and the spec-modelled
minPlatform ` [iOS <value>]` (value defaulting to `0.0.0` when the key is
absent) — except that a present-but-empty minimum-OS value also defaults
to ` [iOS 0.0.0]`. On manifests whose name-key chain selects a truthy
non-string the extractor raises instead (see the counterexample). -/
theorem c3_metadata_extraction (d : DecodedManifest)
    (h : stringValued d = true) :
    extractInfo d = .ok ⟨specAppName d, specVersion d,
      if d.MinimumOSVersion = .str [] then " [iOS 0.0.0]".toList
      else specMinPlatform d⟩ := by
  simp only [stringValued, Bool.and_eq_true] at h
  obtain ⟨⟨⟨⟨⟨⟨h1, h2⟩, h3⟩, h4⟩, h5⟩, h6⟩, h7⟩ := h
  have hlist : ∀ v ∈ [d.CFBundleDisplayName, d.CFBundleName,
      d.BundleDisplayName], strOrUndef v = true := by
    intro v hv
    rcases List.mem_cons.mp hv with rfl | hv
    · exact h1
    rcases List.mem_cons.mp hv with rfl | hv
    · exact h2
    rcases List.mem_cons.mp hv with rfl | hv
    · exact h3
    simp at hv
  have hn := appNameOf_chain [d.CFBundleDisplayName, d.CFBundleName,
    d.BundleDisplayName] d.UILocalizedDisplayName hlist h4
  have hvlist : ∀ v ∈ [d.CFBundleShortVersionString, d.CFBundleVersion],
      strOrUndef v = true := by
    intro v hv
    rcases List.mem_cons.mp hv with rfl | hv
    · exact h5
    rcases List.mem_cons.mp hv with rfl | hv
    · exact h6
    simp at hv
  have hver := version_chain [d.CFBundleShortVersionString, d.CFBundleVersion]
    hvlist
  unfold extractInfo
  rw [show jsOr d.CFBundleDisplayName (jsOr d.CFBundleName
      (jsOr d.BundleDisplayName d.UILocalizedDisplayName)) =
    chainOr [d.CFBundleDisplayName, d.CFBundleName, d.BundleDisplayName]
      d.UILocalizedDisplayName from rfl]
  rw [hn]
  show Except.ok (AppMetadata.mk
      (match specFirstNonEmpty ([d.CFBundleDisplayName, d.CFBundleName,
          d.BundleDisplayName] ++ [d.UILocalizedDisplayName]) with
        | some s => sanitize s
        | none => unknownName)
      (if truthy (jsOr d.CFBundleShortVersionString
          (jsOr d.CFBundleVersion .null))
       then " [v".toList ++ jsToString (jsOr d.CFBundleShortVersionString
          (jsOr d.CFBundleVersion .null)) ++ "]".toList
       else [])
      (" [iOS ".toList ++ jsToString (jsOr d.MinimumOSVersion
          (.str "0.0.0".toList)) ++ "]".toList)) =
    Except.ok ⟨specAppName d, specVersion d,
      if d.MinimumOSVersion = .str [] then " [iOS 0.0.0]".toList
      else specMinPlatform d⟩
  refine congrArg Except.ok ?_
  simp only [AppMetadata.mk.injEq]
  refine ⟨rfl, ?_, ?_⟩
  · exact hver
  · by_cases hemp : d.MinimumOSVersion = .str []
    · rw [if_pos hemp, hemp]
      decide
    · rw [if_neg hemp, minIOS_value d.MinimumOSVersion h7 hemp]
      rfl

/-- Claim C3 witness: a manifest with only `CFBundleName: "Tool"` resolves
to appName `Tool`, empty version suffix and the `0.0.0` platform default
(spec section 8, scenario 3). -/
theorem c3_witness :
    extractInfo ⟨.undefined, .str "Tool".toList, .undefined, .undefined,
        .undefined, .undefined, .undefined⟩ =
      .ok ⟨"Tool".toList, [], " [iOS 0.0.0]".toList⟩ := by
  rw [c3_metadata_extraction _ (by decide)]
  rfl

/-- Claim C4, counterexample: the regex
`/Payload\/[^/]+\.app\/Info\.plist$/` is not anchored at the start, so the
locator accepts `MyPayload/X.app/Info.plist`, which the claim's anchored
pattern `^Payload/[^/]+\.app/Info\.plist$` (nothing before `Payload`)
rejects. -/
theorem c4_counterexample :
    locateManifest ["MyPayload/X.app/Info.plist".toList] =
      some "MyPayload/X.app/Info.plist".toList ∧
    anchoredPayloadMatch "MyPayload/X.app/Info.plist".toList = false := by
  refine ⟨by decide, by decide⟩

/-- Claim C4 (amended): the locator returns the first entry, in container
order, whose name matches the end-anchored pattern
`Payload/[^/]+\.app/Info\.plist$` — an arbitrary (possibly empty) front is
allowed before `Payload` — and returns `none`, a normal non-error outcome,
exactly when no entry matches. -/
theorem c4_first_suffix_match (entries : List (List Char)) :
    (locateManifest entries = none ↔ ∀ x ∈ entries, ¬ SuffixPatMatch x) ∧
    (∀ e, locateManifest entries = some e → SuffixPatMatch e ∧
      ∃ pre suf, entries = pre ++ e :: suf ∧ ∀ y ∈ pre, ¬ SuffixPatMatch y) := by
  constructor
  · unfold locateManifest
    rw [List.find?_eq_none]
    constructor
    · intro h x hx hm
      exact (h x hx) ((testManifestRegex_iff x).mpr hm)
    · intro h x hx hm
      exact (h x hx) ((testManifestRegex_iff x).mp hm)
  · intro e he
    obtain ⟨hx, pre, suf, hsplit, hpre⟩ := find?_eq_some_split _ entries e he
    refine ⟨(testManifestRegex_iff e).mp hx, pre, suf, hsplit, ?_⟩
    intro y hy hm
    have hf := hpre y hy
    have ht := (testManifestRegex_iff y).mpr hm
    rw [hf] at ht
    exact Bool.noConfusion ht

/-- Claim C4 witness: on a concrete entry list the located entry matches the
suffix pattern and everything before it does not. -/
theorem c4_witness :
    SuffixPatMatch "Payload/X.app/Info.plist".toList ∧
    ∃ pre suf,
      ["readme.txt".toList, "Payload/X.app/Info.plist".toList] =
        pre ++ "Payload/X.app/Info.plist".toList :: suf ∧
      ∀ y ∈ pre, ¬ SuffixPatMatch y :=
  (c4_first_suffix_match
    ["readme.txt".toList, "Payload/X.app/Info.plist".toList]).2
    "Payload/X.app/Info.plist".toList (by decide)

/-- Claim C5, counterexample: the extraction is not total on heterogeneous
manifests. With the (truthy, non-string) value `1` under
`CFBundleDisplayName`, `(…)?.replace(…)` is called on a number and throws a
`TypeError` (the `Except.error` outcome) instead of degrading to a
fallback. -/
theorem c5_counterexample :
    extractInfo ⟨.num 1, .undefined, .undefined, .undefined, .undefined,
      .undefined, .undefined⟩ = .error () := rfl

/-- Claim C5 (amended): the extraction is total on every manifest whose four
name keys hold strings, `null` or `undefined`; the version and
minimum-OS keys may hold arbitrary scalars (they are only stringified).
Only a truthy non-string selected by the name-key chain makes the
extraction raise. -/
theorem c5_total_on_stringlike_names (d : DecodedManifest)
    (h1 : strOrNullish d.CFBundleDisplayName = true)
    (h2 : strOrNullish d.CFBundleName = true)
    (h3 : strOrNullish d.BundleDisplayName = true)
    (h4 : strOrNullish d.UILocalizedDisplayName = true) :
    (extractInfo d).isOk = true := by
  have hch := strOrNullish_jsOr _ _ h1 (strOrNullish_jsOr _ _ h2
    (strOrNullish_jsOr _ _ h3 h4))
  unfold extractInfo
  cases hv : jsOr d.CFBundleDisplayName (jsOr d.CFBundleName
      (jsOr d.BundleDisplayName d.UILocalizedDisplayName)) with
  | str s => rfl
  | null => rfl
  | undefined => rfl
  | num n =>
    rw [hv] at hch
    exact Bool.noConfusion hch
  | bool x =>
    rw [hv] at hch
    exact Bool.noConfusion hch

/-- Claim C5 witness: a manifest with a `null` display name, a string bundle
name and a numeric version value extracts without raising. -/
theorem c5_witness :
    (extractInfo ⟨.null, .str "A".toList, .undefined, .undefined, .num 7,
      .undefined, .undefined⟩).isOk = true :=
  c5_total_on_stringlike_names _ (by decide) (by decide) (by decide) (by decide)

end IPARenamer

namespace IPARenamer

/-- Claim C6, counterexample: the extension is not preserved byte-for-byte.
The pipeline lowercases the extension before planning, so `/r/GAME.IPA`
(extension `.IPA`) is renamed to a target whose extension is `.ipa`. -/
theorem c6_counterexample :
    processOne INCLUDE_ORIGINAL_NAME sampleArchive true "/r/GAME.IPA".toList =
      .ok (.renamed "/r/GAME ↔ My App – [v2.1] [iOS 14.0].ipa".toList) ∧
    posixExtname "/r/GAME.IPA".toList = ".IPA".toList ∧
    posixExtname "/r/GAME ↔ My App – [v2.1] [iOS 14.0].ipa".toList =
      ".ipa".toList ∧
    ".ipa".toList ≠ ".IPA".toList := by
  refine ⟨by decide, by decide, by decide, by decide⟩

/-- Claim C6 (amended): every non-`none` plan for a well-formed original
path targets a sibling (same `dirname`), differs from the original path,
and carries the lowercased original extension (byte-identical to the
original extension whenever that is already lowercase). -/
theorem c6_plan_invariants (io : Bool) (info : AppMetadata)
    (p d b t : List Char)
    (hwf : WellFormedFile p d b)
    (hext : toLowerList (posixExtname p) = ".ipa".toList)
    (hplan : getNewFilePath io info (toLowerList (posixExtname p)) p = some t) :
    posixDirname t = posixDirname p ∧
    posixExtname t = toLowerList (posixExtname p) ∧ t ≠ p := by
  rw [hext] at hplan ⊢
  have hq := getNewFilePath_eq io info ".ipa".toList p d b hwf
  rw [hq] at hplan
  by_cases hpb : plannedName io info ".ipa".toList p = b
  · rw [if_pos hpb] at hplan
    exact absurd hplan (by simp)
  · rw [if_neg hpb] at hplan
    have ht : t = d ++ '/' :: plannedName io info ".ipa".toList p := by
      injection hplan with h
      exact h.symm
    have hgood := goodSeg_plannedName io info ".ipa".toList p
    have hwf2 : WellFormedFile t d (plannedName io info ".ipa".toList p) :=
      ⟨hwf.1, hgood.1, hgood.2.1, ht⟩
    refine ⟨?_, ?_, ?_⟩
    · rw [posixDirname_wf t d _ hwf2, posixDirname_wf p d b hwf]
    · rw [posixExtname_wf t d _ hwf2]
      exact extOfPart_plannedName_ipa io info p
    · intro he
      rw [ht] at he
      apply hpb
      have h2 : d ++ '/' :: plannedName io info ".ipa".toList p =
          d ++ '/' :: b := by
        rw [← hwf.2.2.2]
        exact he
      exact (concat_eq_iff d _ b).mp h2

/-- Claim C6 witness: the concrete uppercase-extension plan is a sibling of
the original, differs from it, and carries the lowercased extension. -/
theorem c6_witness :
    posixDirname "/r/GAME ↔ My App – [v2.1] [iOS 14.0].ipa".toList =
      posixDirname "/r/GAME.IPA".toList ∧
    posixExtname "/r/GAME ↔ My App – [v2.1] [iOS 14.0].ipa".toList =
      toLowerList (posixExtname "/r/GAME.IPA".toList) ∧
    "/r/GAME ↔ My App – [v2.1] [iOS 14.0].ipa".toList ≠
      "/r/GAME.IPA".toList :=
  c6_plan_invariants true
    ⟨"My App".toList, " [v2.1]".toList, " [iOS 14.0]".toList⟩
    "/r/GAME.IPA".toList "/r".toList "GAME.IPA".toList
    "/r/GAME ↔ My App – [v2.1] [iOS 14.0].ipa".toList
    ⟨⟨["r".toList], by decide, by decide, by decide⟩, by decide, by decide,
      by decide⟩
    (by decide) (by decide)

/-- Claim C7: the basename of every planned target path contains no
filesystem-reserved character — the whole assembled name (original
basename, appName, version and platform strings included) is sanitized,
each reserved character becoming a single space. -/
theorem c7_reserved_chars_sanitized (io : Bool) (d : DecodedManifest)
    (info : AppMetadata) (c : Char) (fileExt p t : List Char)
    (hres : c ∈ reservedChars)
    (_hinfo : extractInfo d = .ok info)
    (hplan : getNewFilePath io info fileExt p = some t) :
    c ∉ posixBasename t := by
  have hshape : getNewFilePath io info fileExt p =
      (if posixJoin (posixDirname p) (plannedName io info fileExt p) = p
       then none
       else some (posixJoin (posixDirname p) (plannedName io info fileExt p))) :=
    rfl
  rw [hshape] at hplan
  by_cases hc : posixJoin (posixDirname p) (plannedName io info fileExt p) = p
  · rw [if_pos hc] at hplan
    exact absurd hplan (by simp)
  · rw [if_neg hc] at hplan
    injection hplan with h
    rw [← h, posixBasename_join _ _ (goodSeg_plannedName io info fileExt p)]
    unfold plannedName
    exact not_mem_sanitize c hres _

/-- Claim C7 witness: a manifest name `A/B` containing the reserved `/`
yields the target basename `x ↔ A B – [iOS 0.0.0].ipa`, free of `/`. -/
theorem c7_witness :
    '/' ∉ posixBasename "/r/x ↔ A B – [iOS 0.0.0].ipa".toList :=
  c7_reserved_chars_sanitized true
    ⟨.str "A/B".toList, .undefined, .undefined, .undefined, .undefined,
      .undefined, .undefined⟩
    ⟨"A B".toList, [], " [iOS 0.0.0]".toList⟩ '/' ".ipa".toList
    "/r/x.ipa".toList "/r/x ↔ A B – [iOS 0.0.0].ipa".toList
    (by decide) (by decide) (by decide)

/-- Claim C8: a byte sequence is routed to the binary property-list decoder
exactly when its first six bytes are the ASCII `bplist` signature, and to
the textual decoder exactly otherwise (in particular whenever fewer than
six bytes are available). -/
theorem c8_signature_routing (bytes : List Nat) :
    (routeDecoder bytes = PlistDecoder.binary ↔ bytes.take 6 = bplistSig) ∧
    (routeDecoder bytes = PlistDecoder.textual ↔ bytes.take 6 ≠ bplistSig) := by
  unfold routeDecoder
  by_cases h : isBinaryPlist bytes = true
  · rw [if_pos h]
    have hsig := (isBinaryPlist_iff bytes).mp h
    constructor
    · exact ⟨fun _ => hsig, fun _ => rfl⟩
    · constructor
      · intro hx
        exact PlistDecoder.noConfusion hx
      · intro hx
        exact absurd hsig hx
  · rw [if_neg h]
    have h2 : ¬(bytes.take 6 = bplistSig) :=
      fun hx => h ((isBinaryPlist_iff bytes).mpr hx)
    constructor
    · constructor
      · intro hx
        exact PlistDecoder.noConfusion hx
      · intro hx
        exact absurd hx h2
    · exact ⟨fun _ => h2, fun _ => rfl⟩

/-- Claim C8 witness: the exact signature routes to the binary decoder; a
textual prefix and a short sequence route to the textual decoder. -/
theorem c8_witness :
    routeDecoder [0x62, 0x70, 0x6C, 0x69, 0x73, 0x74, 0x00] =
      PlistDecoder.binary ∧
    routeDecoder [0x3C, 0x3F, 0x78, 0x6D, 0x6C] = PlistDecoder.textual ∧
    routeDecoder [0x62, 0x70, 0x6C] = PlistDecoder.textual :=
  ⟨(c8_signature_routing _).1.mpr (by decide),
   (c8_signature_routing _).2.mpr (by decide),
   (c8_signature_routing _).2.mpr (by decide)⟩

/-- Claim C9: each of the four per-archive failures — container open error,
no matching manifest entry, entry-read error, decode error — makes the
extraction resolve to `none` instead of raising; the file is then counted
as skipped (never renamed) and the walk continues with the remaining
archives unchanged. -/
theorem c9_failure_containment (a : Archive) (rok : Bool) (p : List Char)
    (rest : List (Archive × Bool × List Char)) (c : Counters) (io : Bool)
    (hfail : a.openOk = false ∨ locateManifest a.entries = none ∨
      (∃ e, locateManifest a.entries = some e ∧ a.readEntry e = .error ()) ∨
      (∃ e bytes, locateManifest a.entries = some e ∧
        a.readEntry e = .ok bytes ∧ decodeManifest a bytes = none)) :
    extractInfoFromIPA a = .ok none ∧
    (processOne io a rok p = .ok .unsupported ∨
     processOne io a rok p = .ok .missingMetadata) ∧
    renameFiles io ((a, rok, p) :: rest) c =
      renameFiles io rest ⟨c.renamedCount, c.skippedCount + 1⟩ := by
  have hex : extractInfoFromIPA a = .ok none := by
    unfold extractInfoFromIPA
    by_cases hopen : a.openOk = false
    · rw [if_pos hopen]
    · rw [if_neg hopen]
      rcases hfail with h | h | ⟨e, he, hr⟩ | ⟨e, bytes, he, hr, hd⟩
      · exact absurd h hopen
      · rw [h]
      · rw [he]
        show (match a.readEntry e with
          | Except.error _ => Except.ok none
          | Except.ok bytes =>
            match decodeManifest a bytes with
            | none => Except.ok none
            | some d =>
              match extractInfo d with
              | Except.error err => Except.error err
              | Except.ok info => Except.ok (some info)) = Except.ok none
        rw [hr]
      · rw [he]
        show (match a.readEntry e with
          | Except.error _ => Except.ok none
          | Except.ok bytes =>
            match decodeManifest a bytes with
            | none => Except.ok none
            | some d =>
              match extractInfo d with
              | Except.error err => Except.error err
              | Except.ok info => Except.ok (some info)) = Except.ok none
        rw [hr]
        show (match decodeManifest a bytes with
          | none => Except.ok none
          | some d =>
            match extractInfo d with
            | Except.error err => Except.error err
            | Except.ok info => Except.ok (some info)) = Except.ok none
        rw [hd]
  have hpo : processOne io a rok p = .ok .unsupported ∨
      processOne io a rok p = .ok .missingMetadata := by
    by_cases hsupp : isFileSupported (toLowerList (posixExtname p)) = false
    · left
      unfold processOne
      rw [if_pos hsupp]
    · right
      unfold processOne
      rw [if_neg hsupp, hex]
  refine ⟨hex, hpo, ?_⟩
  have hstep : renameFiles io ((a, rok, p) :: rest) c =
      (match processOne io a rok p with
       | .error err => .error err
       | .ok o => renameFiles io rest (bumpCounters c o)) := rfl
  rcases hpo with h | h <;> rw [hstep, h] <;> rfl

/-- Claim C9 witness: an unopenable archive resolves to `none`, is skipped,
and the walk goes on. -/
theorem c9_witness :
    extractInfoFromIPA brokenArchive = .ok none ∧
    (processOne true brokenArchive true "/r/game.ipa".toList =
       .ok .unsupported ∨
     processOne true brokenArchive true "/r/game.ipa".toList =
       .ok .missingMetadata) ∧
    renameFiles true [(brokenArchive, true, "/r/game.ipa".toList)] ⟨0, 0⟩ =
      renameFiles true [] ⟨0, 1⟩ :=
  c9_failure_containment brokenArchive true "/r/game.ipa".toList [] ⟨0, 0⟩
    true (Or.inl rfl)

/-- Claim C10: with the default `INCLUDE_ORIGINAL_NAME = true`, on any
well-formed original path with a non-empty extension the planner never
returns the `none` sentinel: the candidate basename strictly extends the
original basename with ` ↔ ` and the metadata suffix, so the target always
differs from the original and a rename is attempted on every run — also on
files the pipeline renamed before. -/
theorem c10_default_always_plans (info : AppMetadata) (p d b : List Char)
    (hwf : WellFormedFile p d b) (hext : posixExtname p ≠ []) :
    (getNewFilePath INCLUDE_ORIGINAL_NAME info
      (toLowerList (posixExtname p)) p).isSome = true := by
  have h1 : INCLUDE_ORIGINAL_NAME = true := rfl
  rw [h1]
  have hlen := length_plannedName_gt info p d b hwf hext
  have hq := getNewFilePath_eq true info (toLowerList (posixExtname p)) p d b
    hwf
  rw [hq]
  rw [if_neg ?_]
  · rfl
  · intro he
    rw [he] at hlen
    omega

/-- Claim C10 witness: the planner plans a further rename even for a file
the pipeline itself just renamed. -/
theorem c10_witness :
    (getNewFilePath INCLUDE_ORIGINAL_NAME
      ⟨"My App".toList, " [v2.1]".toList, " [iOS 14.0]".toList⟩
      (toLowerList (posixExtname
        "/r/game ↔ My App – [v2.1] [iOS 14.0].ipa".toList))
      "/r/game ↔ My App – [v2.1] [iOS 14.0].ipa".toList).isSome = true :=
  c10_default_always_plans
    ⟨"My App".toList, " [v2.1]".toList, " [iOS 14.0]".toList⟩
    "/r/game ↔ My App – [v2.1] [iOS 14.0].ipa".toList "/r".toList
    "game ↔ My App – [v2.1] [iOS 14.0].ipa".toList
    ⟨⟨["r".toList], by decide, by decide, by decide⟩, by decide, by decide,
      by decide⟩
    (by decide)

end IPARenamer
